import Mathlib

/-!
Shallow embedding of the ISLF attendance scanner (src/js/scanner.js).

The embedding covers:
* `parseQRContent` (scanner.js lines 405-467): the five payload-parsing
  strategies, with the JavaScript regexes of strategies 1-3 rendered as
  explicit backtracking matchers over `List Char`, strategy 4's
  `JSON.parse` rendered as a fuel-based recursive-descent JSON parser,
  and strategy 5's line splitting rendered directly.
* the deduplication logic of `handleQRDetected` / `processQRData`
  (lines 273-354) as a step function on an explicit scanner state,
  together with `populateScannedQRCodes`, `clearScannedQRCodes`,
  `clearAllAttendance` and the local-storage branch of `deleteRecord`.
* the pure core of `exportToCSV` (lines 800-823).

JavaScript strings are modelled as `List Char` / `String`; JavaScript
`Date.now()` values and record ids as `Nat`; the JS `Set` as a
duplicate-free `List String` in insertion order.
-/

/-- Whitespace class of JavaScript's regex `\s` and of `String.trim`:
space, tab, line feed, vertical tab, form feed, carriage return,
no-break space, the Unicode space separators, the line/paragraph
separators and the BOM. -/
def isWsChar (c : Char) : Bool :=
  decide (c = ' ' ∨ c = '\t' ∨ c = '\n' ∨ c = '\r' ∨ c.val = 0x0B ∨ c.val = 0x0C ∨
    c.val = 0xA0 ∨ c.val = 0x1680 ∨ (0x2000 ≤ c.val ∧ c.val ≤ 0x200A) ∨
    c.val = 0x2028 ∨ c.val = 0x2029 ∨ c.val = 0x202F ∨ c.val = 0x205F ∨
    c.val = 0x3000 ∨ c.val = 0xFEFF)

/-- JavaScript line terminators, the characters NOT matched by `.`
in a regex without the `s` flag. -/
def isLineTerm (c : Char) : Bool :=
  decide (c = '\n' ∨ c = '\r' ∨ c.val = 0x2028 ∨ c.val = 0x2029)

/-- Remove trailing whitespace (the right half of `String.trim`). -/
def dropTrailingWs (cs : List Char) : List Char :=
  (cs.reverse.dropWhile isWsChar).reverse

/-- JavaScript `String.prototype.trim` on a character list. -/
def trimL (cs : List Char) : List Char :=
  dropTrailingWs (cs.dropWhile isWsChar)

/-- Split at the first comma: `some (before, after)` when a comma occurs,
`none` otherwise.  `before` never contains a comma. -/
def splitAtComma : List Char → Option (List Char × List Char)
  | [] => none
  | c :: rest =>
    if c = ',' then some ([], rest)
    else (splitAtComma rest).map (fun p => (c :: p.1, p.2))

/-- Does `.+$` match here (regexes without `m`/`s` flags): nonempty and
free of line terminators. -/
def dotPlusEnd (cs : List Char) : Bool :=
  !cs.isEmpty && cs.all (fun c => !isLineTerm c)

/-- Backtracking matcher for the regex tail `\s*(.+)$`: greedily extend
`\s*`, and on failure of the rest fall back to letting `.` consume the
whitespace character.  Returns the text captured by `(.+)`. -/
def matchTail : List Char → Option (List Char)
  | [] => none
  | c :: rest =>
    if isWsChar c then
      match matchTail rest with
      | some g => some g
      | none => if dotPlusEnd (c :: rest) then some (c :: rest) else none
    else if dotPlusEnd (c :: rest) then some (c :: rest) else none

/-- Backtracking matcher for `\s*([^,]+)` against a comma-free remainder
that must be consumed entirely (the text standing between two commas in
strategy 1).  Returns the text captured by `([^,]+)`. -/
def matchWsGroup : List Char → Option (List Char)
  | [] => none
  | c :: rest =>
    if isWsChar c then
      match matchWsGroup rest with
      | some g => some g
      | none => some (c :: rest)
    else some (c :: rest)

/-- Strategy 1 of `parseQRContent`: the anchored regex
`^([^,]+),\s*([^,]+),\s*(.+)$`.  On a match returns the pair
(`lastName, firstName`, `country`) exactly as scanner.js builds it
(every captured group trimmed). -/
def strategy1 (cs : List Char) : Option (List Char × List Char) :=
  match splitAtComma cs with
  | none => none
  | some (a, r1) =>
    if a.isEmpty then none else
    match splitAtComma r1 with
    | none => none
    | some (b, c) =>
      match matchWsGroup b, matchTail c with
      | some g2, some g3 =>
        some (trimL a ++ ',' :: ' ' :: trimL g2, trimL g3)
      | _, _ => none

/-- Lower-case an ASCII letter (for the `i` regex flag on the literals
`Name:` and `Country:`, which are pure ASCII). -/
def charLower (c : Char) : Char :=
  if decide ('A' ≤ c ∧ c ≤ 'Z') then Char.ofNat (c.toNat + 32) else c

/-- Match a literal case-insensitively, returning the remainder. -/
def stripCI : List Char → List Char → Option (List Char)
  | [], cs => some cs
  | _ :: _, [] => none
  | p :: ps, c :: cs => if charLower c = charLower p then stripCI ps cs else none

/-- Match `([^,]+),` at the current position: capture up to the first
comma (nonempty) and drop the comma. -/
def takeToComma (cs : List Char) : Option (List Char × List Char) :=
  match splitAtComma cs with
  | some (a, r) => if a.isEmpty then none else some (a, r)
  | none => none

/-- Backtracking matcher for `\s*([^,]+),` in the middle of strategy 2:
greedily extend `\s*`, and on failure let `[^,]+` start at the
whitespace character.  Returns the captured group and the remainder
after the comma. -/
def matchWsGroupComma : List Char → Option (List Char × List Char)
  | [] => none
  | c :: rest =>
    if c = ',' then none
    else if isWsChar c then
      match matchWsGroupComma rest with
      | some p => some p
      | none => takeToComma (c :: rest)
    else takeToComma (c :: rest)

/-- Backtracking matcher for the unanchored regex tail `\s*(.+)`:
greedily extend `\s*`; `(.+)` then greedily takes the longest
line-terminator-free run. -/
def matchWsDotPlus : List Char → Option (List Char)
  | [] => none
  | c :: rest =>
    if isWsChar c then
      match matchWsDotPlus rest with
      | some g => some g
      | none =>
        if isLineTerm c then none
        else some ((c :: rest).takeWhile (fun d => !isLineTerm d))
    else if isLineTerm c then none
    else some ((c :: rest).takeWhile (fun d => !isLineTerm d))

/-- Attempt the strategy-2 regex `Name:\s*([^,]+),\s*Country:\s*(.+)` (flag
`i`) at the current position. -/
def strat2At (cs : List Char) : Option (List Char × List Char) :=
  match stripCI ['n', 'a', 'm', 'e', ':'] cs with
  | none => none
  | some r1 =>
    match matchWsGroupComma r1 with
    | none => none
    | some (g1, r2) =>
      match stripCI ['c', 'o', 'u', 'n', 't', 'r', 'y', ':'] (r2.dropWhile isWsChar) with
      | none => none
      | some r3 =>
        match matchWsDotPlus r3 with
        | none => none
        | some g2 => some (trimL g1, trimL g2)

/-- Strategy 2 of `parseQRContent`: unanchored search for the labeled
form, trying every start position left to right. -/
def strategy2 : List Char → Option (List Char × List Char)
  | [] => none
  | c :: rest =>
    match strat2At (c :: rest) with
    | some r => some r
    | none => strategy2 rest

/-- Strategy 3 of `parseQRContent`: the anchored regex
`^([^,]+),\s*(.+)$`, both captured groups trimmed. -/
def strategy3 (cs : List Char) : Option (List Char × List Char) :=
  match splitAtComma cs with
  | none => none
  | some (a, r) =>
    if a.isEmpty then none
    else (matchTail r).map (fun g => (trimL a, trimL g))

/-- JavaScript `split('\n')`; splitting the empty string yields `[""]`. -/
def splitNl : List Char → List (List Char)
  | [] => [[]]
  | c :: rest =>
    if c = '\n' then [] :: splitNl rest
    else
      match splitNl rest with
      | h :: t => (c :: h) :: t
      | [] => [[c]]

/-- The lines kept by `qrData.split('\n').filter(line => line.trim())`:
lines whose trim is nonempty. -/
def nonBlankLines (cs : List Char) : List (List Char) :=
  (splitNl cs).filter (fun l => !(trimL l).isEmpty)

/-- Strategy 5 of `parseQRContent` followed by the final fallback:
three or more non-blank lines use the first three, exactly two use both,
otherwise the empty identity is returned. -/
def strategy5OrDefault (cs : List Char) : List Char × List Char :=
  match nonBlankLines cs with
  | l0 :: l1 :: l2 :: _ => (trimL l0 ++ ',' :: ' ' :: trimL l1, trimL l2)
  | [l0, l1] => (trimL l0, trimL l1)
  | _ => ([], [])

/-- JSON values as produced by `JSON.parse`, at the fidelity the scanner
needs: numbers are abstracted to a single flag recording whether the
mantissa is zero, which is all that JavaScript truthiness inspects for
the numbers that occur here (float under/overflow of extreme exponents
is not modelled).  Objects keep their member list in source order. -/
inductive JVal where
  | null : JVal
  | bool : Bool → JVal
  | num : Bool → JVal
  | str : String → JVal
  | arr : List JVal → JVal
  | obj : List (String × JVal) → JVal

/-- JSON grammar whitespace (narrower than the regex `\s` class). -/
def isJsonWs (c : Char) : Bool :=
  decide (c = ' ' ∨ c = '\t' ∨ c = '\n' ∨ c = '\r')

/-- Skip JSON whitespace. -/
def skipJsonWs (cs : List Char) : List Char := cs.dropWhile isJsonWs

/-- Single-character JSON string escapes. -/
def jsonEsc (c : Char) : Option Char :=
  if c = '"' then some '"'
  else if c = '\\' then some '\\'
  else if c = '/' then some '/'
  else if c = 'b' then some (Char.ofNat 8)
  else if c = 'f' then some (Char.ofNat 12)
  else if c = 'n' then some '\n'
  else if c = 'r' then some '\r'
  else if c = 't' then some '\t'
  else none

/-- Hexadecimal digit value. -/
def hexVal (c : Char) : Option Nat :=
  if decide ('0' ≤ c ∧ c ≤ '9') then some (c.toNat - '0'.toNat)
  else if decide ('a' ≤ c ∧ c ≤ 'f') then some (c.toNat - 'a'.toNat + 10)
  else if decide ('A' ≤ c ∧ c ≤ 'F') then some (c.toNat - 'A'.toNat + 10)
  else none

/-- Parse the body of a JSON string after the opening quote: `some
(content, rest)` with `rest` the input after the closing quote.
Rejects raw control characters and bad escapes, as `JSON.parse` does.
A `\u` escape outside the scalar-value range falls back to `Char.ofNat`'s
default, an acceptable approximation since no claim touches surrogates. -/
def pStringRest : Nat → List Char → Option (List Char × List Char)
  | 0, _ => none
  | _ + 1, [] => none
  | fuel + 1, c :: rest =>
    if c = '"' then some ([], rest)
    else if c = '\\' then
      match rest with
      | [] => none
      | e :: rest2 =>
        if e = 'u' then
          match rest2 with
          | h1 :: h2 :: h3 :: h4 :: rest3 =>
            match hexVal h1, hexVal h2, hexVal h3, hexVal h4 with
            | some a, some b, some c2, some d =>
              (pStringRest fuel rest3).map
                (fun p => (Char.ofNat (a * 4096 + b * 256 + c2 * 16 + d) :: p.1, p.2))
            | _, _, _, _ => none
          | _ => none
        else
          match jsonEsc e with
          | some d => (pStringRest fuel rest2).map (fun p => (d :: p.1, p.2))
          | none => none
    else if c.val < 32 then none
    else (pStringRest fuel rest).map (fun p => (c :: p.1, p.2))

/-- Integer part of a JSON number: `0`, or a nonzero digit followed by
digits. -/
def pNumInt : List Char → Option (List Char × List Char)
  | [] => none
  | c :: rest =>
    if c = '0' then some (['0'], rest)
    else if c.isDigit then
      some (c :: rest.takeWhile Char.isDigit, rest.dropWhile Char.isDigit)
    else none

/-- Optional fraction part `.digits+`; absent fraction is `([], cs)`. -/
def pFracOpt : List Char → Option (List Char × List Char)
  | '.' :: rest =>
    let ds := rest.takeWhile Char.isDigit
    if ds.isEmpty then none else some (ds, rest.dropWhile Char.isDigit)
  | cs => some ([], cs)

/-- Optional exponent part `[eE][+-]?digits+`; keeps only the remainder. -/
def pExpOpt (cs : List Char) : Option (List Char) :=
  match cs with
  | c :: rest =>
    if c = 'e' ∨ c = 'E' then
      let rest2 := match rest with
        | s :: r2 => if s = '+' ∨ s = '-' then r2 else rest
        | [] => rest
      let ds := rest2.takeWhile Char.isDigit
      if ds.isEmpty then none else some (rest2.dropWhile Char.isDigit)
    else some cs
  | [] => some cs

/-- The unsigned part of a JSON number: integer part, optional
fraction, optional exponent.  The produced flag records whether every
mantissa digit is `0`, i.e. whether the JavaScript number is falsy. -/
def pNumBody (cs1 : List Char) : Option (JVal × List Char) :=
  match pNumInt cs1 with
  | none => none
  | some (ds, cs2) =>
    match pFracOpt cs2 with
    | none => none
    | some (fs, cs3) =>
      match pExpOpt cs3 with
      | none => none
      | some cs4 => some (.num ((ds ++ fs).all (· = '0')), cs4)

/-- Parse a JSON number: an optional leading minus then the body. -/
def pNumber (cs : List Char) : Option (JVal × List Char) :=
  match cs with
  | '-' :: r => pNumBody r
  | _ => pNumBody cs

/-- Match an exact literal, returning the remainder. -/
def stripLit : List Char → List Char → Option (List Char)
  | [], cs => some cs
  | _ :: _, [] => none
  | p :: ps, c :: cs => if c = p then stripLit ps cs else none

mutual

/-- Recursive-descent parser for a JSON value.  The input must start at
a non-whitespace character; `fuel` only bounds recursion (callers pass
more fuel than the input length, so it never runs out on a successful
grammar derivation). -/
def pValue : Nat → List Char → Option (JVal × List Char)
  | 0, _ => none
  | _ + 1, [] => none
  | fuel + 1, c :: rest =>
    if c = '"' then (pStringRest fuel rest).map (fun p => (.str ⟨p.1⟩, p.2))
    else if c = '{' then
      match skipJsonWs rest with
      | '}' :: r => some (.obj [], r)
      | cs1 => (pMembers fuel cs1).map (fun p => (.obj p.1, p.2))
    else if c = '[' then
      match skipJsonWs rest with
      | ']' :: r => some (.arr [], r)
      | cs1 => (pElements fuel cs1).map (fun p => (.arr p.1, p.2))
    else if c = 't' then (stripLit ['r', 'u', 'e'] rest).map (fun r => (.bool true, r))
    else if c = 'f' then (stripLit ['a', 'l', 's', 'e'] rest).map (fun r => (.bool false, r))
    else if c = 'n' then (stripLit ['u', 'l', 'l'] rest).map (fun r => (.null, r))
    else if c = '-' ∨ c.isDigit then pNumber (c :: rest)
    else none

/-- Parse the members of a JSON object, positioned at the opening quote
of a key (whitespace already skipped); consumes the closing `}`. -/
def pMembers : Nat → List Char → Option (List (String × JVal) × List Char)
  | 0, _ => none
  | fuel + 1, cs =>
    match cs with
    | [] => none
    | c :: rest =>
      if c = '"' then
        match pStringRest fuel rest with
        | none => none
        | some (k, r1) =>
          match skipJsonWs r1 with
          | [] => none
          | c2 :: r2 =>
            if c2 = ':' then
              match pValue fuel (skipJsonWs r2) with
              | none => none
              | some (v, r3) =>
                match skipJsonWs r3 with
                | [] => none
                | c3 :: r4 =>
                  if c3 = ',' then
                    (pMembers fuel (skipJsonWs r4)).map
                      (fun p => ((⟨k⟩, v) :: p.1, p.2))
                  else if c3 = '}' then some ([(⟨k⟩, v)], r4)
                  else none
            else none
      else none

/-- Parse the elements of a JSON array, positioned at the start of a
value (whitespace already skipped); consumes the closing `]`. -/
def pElements : Nat → List Char → Option (List JVal × List Char)
  | 0, _ => none
  | fuel + 1, cs =>
    match pValue fuel cs with
    | none => none
    | some (v, r1) =>
      match skipJsonWs r1 with
      | [] => none
      | c2 :: r2 =>
        if c2 = ',' then (pElements fuel (skipJsonWs r2)).map (fun p => (v :: p.1, p.2))
        else if c2 = ']' then some ([v], r2)
        else none

end

/-- The embedding of `JSON.parse`: `none` models a thrown SyntaxError. -/
def jsonParseL (cs : List Char) : Option JVal :=
  match pValue (cs.length + 1) (skipJsonWs cs) with
  | some (v, rest) => if skipJsonWs rest = [] then some v else none
  | none => none

/-- A JavaScript property-access result: `none` is `undefined`. -/
abbrev JSProp := Option JVal

/-- Object member lookup as `JSON.parse` objects behave: with duplicate
keys the last occurrence wins. -/
def objGet (kvs : List (String × JVal)) (k : String) : Option JVal :=
  ((kvs.filter (fun p => p.1 = k)).getLast?).map (fun p => p.2)

/-- Property access `value.key` as strategy 4 performs it: reading a
property of `null` throws a TypeError (modelled as `Except.error`);
non-object values yield `undefined`; objects look the key up with the
last duplicate winning, as `JSON.parse` builds its objects. -/
def jsGetField (v : JVal) (k : String) : Except Unit JSProp :=
  match v with
  | .null => .error ()
  | .obj kvs => .ok (objGet kvs k)
  | _ => .ok none

/-- JavaScript truthiness of a property-access result. -/
def truthy : JSProp → Bool
  | none => false
  | some .null => false
  | some (.bool b) => b
  | some (.num z) => !z
  | some (.str s) => decide (s ≠ "")
  | some (.arr _) => true
  | some (.obj _) => true

/-- Calling `.trim()` on a property-access result: only strings have the
method; anything else throws a TypeError. -/
def jsTrimProp : JSProp → Except Unit (List Char)
  | some (.str s) => .ok (trimL s.data)
  | _ => .error ()

/-- Body of the `try` block of strategy 4 (scanner.js lines 438-447):
`JSON.parse` followed by the two field-shape checks.  `Except.error`
models any exception thrown inside the block (SyntaxError from
`JSON.parse`, TypeError from property access on `null` or `.trim()` on a
non-string); `ok none` means the block falls through without returning. -/
def strategy4core (cs : List Char) : Except Unit (Option (List Char × List Char)) :=
  match jsonParseL cs with
  | none => .error ()
  | some j =>
    match jsGetField j "name", jsGetField j "country" with
    | .error e, _ => .error e
    | .ok _, .error e => .error e
    | .ok nv, .ok cv =>
      if truthy nv && truthy cv then
        match jsTrimProp nv, jsTrimProp cv with
        | .error e, _ => .error e
        | .ok _, .error e => .error e
        | .ok n, .ok c => .ok (some (n, c))
      else
        match jsGetField j "lastName", jsGetField j "firstName",
              jsGetField j "country" with
        | .error e, _, _ => .error e
        | .ok _, .error e, _ => .error e
        | .ok _, .ok _, .error e => .error e
        | .ok lv, .ok fv, .ok cv2 =>
          if truthy lv && truthy fv && truthy cv2 then
            match jsTrimProp lv, jsTrimProp fv, jsTrimProp cv2 with
            | .error e, _, _ => .error e
            | .ok _, .error e, _ => .error e
            | .ok _, .ok _, .error e => .error e
            | .ok l, .ok f, .ok c => .ok (some (l ++ ',' :: ' ' :: f, c))
          else .ok none

/-- Strategy 4 with its `catch (e)`: every exception becomes a plain
strategy miss. -/
def strategy4 (cs : List Char) : Option (List Char × List Char) :=
  match strategy4core cs with
  | .ok r => r
  | .error _ => none

/-- The parse result `{ name, country }`. -/
structure Identity where
  name : String
  country : String
deriving Repr, DecidableEq

/-- The whole of `parseQRContent` on a character list: the five
strategies in source order, first match wins, empty identity otherwise. -/
def parseCore (cs : List Char) : List Char × List Char :=
  match strategy1 cs with
  | some r => r
  | none =>
    match strategy2 cs with
    | some r => r
    | none =>
      match strategy3 cs with
      | some r => r
      | none =>
        match strategy4 cs with
        | some r => r
        | none => strategy5OrDefault cs

/-- `parseQRContent` (scanner.js lines 405-467). -/
def parseQRContent (s : String) : Identity :=
  let r := parseCore s.data
  { name := ⟨r.1⟩, country := ⟨r.2⟩ }

/-- The same computation with JavaScript exception propagation made
explicit: the only fallible region is strategy 4's `try` block, whose
exceptions the `catch` absorbs, so the function can be compared against
`parseQRContent` to state totality. -/
def parseQRContentExc (s : String) : Except Unit Identity :=
  match strategy1 s.data with
  | some r => .ok { name := ⟨r.1⟩, country := ⟨r.2⟩ }
  | none =>
    match strategy2 s.data with
    | some r => .ok { name := ⟨r.1⟩, country := ⟨r.2⟩ }
    | none =>
      match strategy3 s.data with
      | some r => .ok { name := ⟨r.1⟩, country := ⟨r.2⟩ }
      | none =>
        match (match strategy4core s.data with
               | .ok r => r
               | .error _ => none) with
        | some r => .ok { name := ⟨r.1⟩, country := ⟨r.2⟩ }
        | none =>
          let r := strategy5OrDefault s.data
          .ok { name := ⟨r.1⟩, country := ⟨r.2⟩ }

/-- One persisted attendance record (the fields the session logic
reads; `scan_timestamp` abstracts the stored date as epoch time). -/
structure AttendanceRecord where
  id : Nat
  name : String
  country : String
  raw_qr_data : String
  scan_timestamp : Nat
deriving Repr, DecidableEq

/-- JavaScript `Set.add`: append when absent (sets iterate in insertion
order). -/
def setAdd (s : List String) (x : String) : List String :=
  if s.contains x then s else s ++ [x]

/-- The scanner session state (the fields of `QRAttendanceScanner` the
deduplication and record logic touches).  Records are modelled in the
local-storage representation, the branch every claim's spec text
describes. -/
structure ScannerState where
  lastScannedCode : Option String
  lastScanTime : Nat
  scanCooldown : Nat
  scannedQRCodes : List String
  records : List AttendanceRecord
deriving Repr, DecidableEq

/-- The constructor state (scanner.js lines 9-14): no last code, zero
last time, 2000 ms cooldown, empty set, no records. -/
def initialState : ScannerState :=
  { lastScannedCode := none
    lastScanTime := 0
    scanCooldown := 2000
    scannedQRCodes := []
    records := [] }

/-- `populateScannedQRCodes` (scanner.js lines 539-548): clear the set,
then add each record's `raw_qr_data`, skipping falsy (empty) payloads. -/
def populateList (records : List AttendanceRecord) : List String :=
  records.foldl
    (fun s r => if r.raw_qr_data ≠ "" then setAdd s r.raw_qr_data else s) []

/-- The outcome `handleQRDetected` reports for one detection. -/
inductive Outcome where
  | suppressed : Outcome
  | duplicate : Outcome
  | recorded : String → String → Outcome
  | invalidFormat : Outcome
deriving Repr, DecidableEq

/-- `processQRData` plus the completed `saveAttendance` /
`loadAttendanceRecords` round (scanner.js lines 325-354, 469-527,
611-653, local-storage branch): on a successful parse the record is
appended, the payload is added to the set, and the reload then rebuilds
the set from the stored records; on a failed parse nothing changes. -/
def processQRDataStep (st : ScannerState) (qrData : String) (now rid : Nat) :
    ScannerState × Outcome :=
  let p := parseQRContent qrData
  if p.name ≠ "" ∧ p.country ≠ "" then
    let st1 := { st with scannedQRCodes := setAdd st.scannedQRCodes qrData }
    let recs := st1.records ++
      [{ id := rid, name := p.name, country := p.country,
         raw_qr_data := qrData, scan_timestamp := now }]
    ({ st1 with records := recs, scannedQRCodes := populateList recs },
      .recorded p.name p.country)
  else (st, .invalidFormat)

/-- `handleQRDetected` (scanner.js lines 273-300): cooldown suppression
first, then the session duplicate check, then processing; `rid` is the
identifier `generateId` would mint for a new record. -/
def handleQRDetectedStep (st : ScannerState) (qrData : String) (now rid : Nat) :
    ScannerState × Outcome :=
  if st.lastScannedCode = some qrData ∧ now - st.lastScanTime < st.scanCooldown then
    (st, .suppressed)
  else if st.scannedQRCodes.contains qrData then
    (st, .duplicate)
  else
    processQRDataStep
      { st with lastScannedCode := some qrData, lastScanTime := now } qrData now rid

/-- `clearScannedQRCodes` (scanner.js lines 554-559): empty the set,
leave the records alone. -/
def clearScannedQRCodesStep (st : ScannerState) : ScannerState :=
  { st with scannedQRCodes := [] }

/-- `clearAllAttendance` (scanner.js lines 561-609, local-storage
branch): remove every record, clear the set, and reload (which
repopulates from the now-empty store). -/
def clearAllAttendanceStep (st : ScannerState) : ScannerState :=
  { st with records := [], scannedQRCodes := populateList [] }

/-- `loadAttendanceRecords`' effect on the session set (scanner.js
lines 611-653, local-storage branch): rebuild it from the stored
records. -/
def populateScannedQRCodesStep (st : ScannerState) : ScannerState :=
  { st with scannedQRCodes := populateList st.records }

/-- `deleteRecord` (scanner.js lines 693-737, local-storage branch):
find the record, filter it out of the store, drop its payload from the
set, then reload — which rebuilds the set from the remaining records,
superseding the direct removal. -/
def deleteRecordStep (st : ScannerState) (rid : Nat) : ScannerState :=
  let recordToDelete := st.records.find? (fun r => r.id = rid)
  let recs := st.records.filter (fun r => r.id ≠ rid)
  let seenAfterDelete :=
    match recordToDelete with
    | some r =>
      if r.raw_qr_data ≠ "" then st.scannedQRCodes.filter (fun x => x ≠ r.raw_qr_data)
      else st.scannedQRCodes
    | none => st.scannedQRCodes
  let stMid := { st with records := recs, scannedQRCodes := seenAfterDelete }
  { stMid with scannedQRCodes := populateList stMid.records }

/-- The spec's deduplication verdicts. -/
inductive Decision where
  | ACCEPT : Decision
  | SUPPRESS_COOLDOWN : Decision
  | REJECT_DUPLICATE : Decision
deriving Repr, DecidableEq

/-- Modelled from the spec: the deduplication policy contract
`decide(payload, now, lastPayload, lastAcceptedAt, seenSet, cooldownMs)`
of section 4.2, rules evaluated in order — cooldown suppression, then
the seen-set check, then acceptance. -/
def decideDedup (payload : String) (now : Nat) (lastPayload : Option String)
    (lastAcceptedAt : Nat) (seenSet : List String) (cooldownMs : Nat) : Decision :=
  if lastPayload = some payload ∧ now - lastAcceptedAt < cooldownMs then
    .SUPPRESS_COOLDOWN
  else if seenSet.contains payload then .REJECT_DUPLICATE
  else .ACCEPT

/-- The policy decision read off a scanner state. -/
def decideState (st : ScannerState) (payload : String) (now : Nat) : Decision :=
  decideDedup payload now st.lastScannedCode st.lastScanTime
    st.scannedQRCodes st.scanCooldown

/-- Stable insert for the newest-first record sort: a record moves ahead
only of strictly older records, as any stable sort under the comparator
`(a, b) => dateB - dateA` behaves. -/
def insertDescTs (r : AttendanceRecord) : List AttendanceRecord → List AttendanceRecord
  | [] => [r]
  | x :: xs =>
    if x.scan_timestamp ≤ r.scan_timestamp then r :: x :: xs
    else x :: insertDescTs r xs

/-- The `records.sort((a, b) => new Date(b.scan_timestamp) - new
Date(a.scan_timestamp))` of `exportToCSV`: JavaScript's sort is stable,
so it agrees with stable insertion sort under the same key. -/
def sortDescTs : List AttendanceRecord → List AttendanceRecord
  | [] => []
  | x :: xs => insertDescTs x (sortDescTs xs)

/-- The `.replace(/"/g, '""')` quote doubling. -/
def escQuotes : List Char → List Char
  | [] => []
  | c :: rest => if c = '"' then '"' :: '"' :: escQuotes rest else c :: escQuotes rest

/-- Wrap a field in double quotes. -/
def quoteWrap (cs : List Char) : List Char := '"' :: (cs ++ ['"'])

/-- The header row `headers.join(',')` of `exportToCSV`. -/
def csvHeader : String := "No.,Name,Country,Scan Date,Scan Time,Full Timestamp"

/-- One data row of `exportToCSV` for the record at position `i` of the
sorted list.  `fd`, `ft`, `ff` abstract `toLocaleDateString`,
`toLocaleTimeString` and `toLocaleString` applied to the scan
timestamp; the bare row number is joined unquoted, the five remaining
fields are quote-wrapped, and only name and country pass through the
quote-doubling replace. -/
def csvRow (fd ft ff : Nat → String) (i : Nat) (r : AttendanceRecord) : String :=
  String.intercalate ","
    [toString (i + 1),
     ⟨quoteWrap (escQuotes r.name.data)⟩,
     ⟨quoteWrap (escQuotes r.country.data)⟩,
     ⟨quoteWrap (fd r.scan_timestamp).data⟩,
     ⟨quoteWrap (ft r.scan_timestamp).data⟩,
     ⟨quoteWrap (ff r.scan_timestamp).data⟩]

/-- The pure core of `exportToCSV` (scanner.js lines 796-826): `none`
models the empty-store alert that produces no file; otherwise the
newest-first sorted records are rendered under the header and joined
with line feeds. -/
def exportToCSV (fd ft ff : Nat → String) (records : List AttendanceRecord) :
    Option String :=
  if records.isEmpty then none
  else
    let sorted := sortDescTs records
    some (String.intercalate "\n"
      (csvHeader :: sorted.enum.map (fun p => csvRow fd ft ff p.1 p.2)))

theorem trimL_cons_ws {c : Char} (cs : List Char) (h : isWsChar c = true) :
    trimL (c :: cs) = trimL cs := by
  simp [trimL, List.dropWhile_cons, h]

theorem matchWsGroup_isSome (cs : List Char) (h : cs ≠ []) :
    (matchWsGroup cs).isSome := by
  induction cs with
  | nil => exact absurd rfl h
  | cons c rest ih =>
    unfold matchWsGroup
    split
    · cases hr : matchWsGroup rest <;> simp
    · simp

theorem matchWsGroup_trim (cs g : List Char) (h : matchWsGroup cs = some g) :
    trimL g = trimL cs := by
  induction cs with
  | nil => simp [matchWsGroup] at h
  | cons c rest ih =>
    unfold matchWsGroup at h
    split at h
    · rename_i hw
      cases hr : matchWsGroup rest with
      | some g' =>
        rw [hr] at h
        cases h
        rw [ih hr, trimL_cons_ws rest hw]
      | none =>
        rw [hr] at h
        cases h
        rfl
    · cases h
      rfl

theorem matchTail_trim (cs g : List Char) (h : matchTail cs = some g) :
    trimL g = trimL cs := by
  induction cs with
  | nil => simp [matchTail] at h
  | cons c rest ih =>
    unfold matchTail at h
    split at h
    · rename_i hw
      cases hr : matchTail rest with
      | some g' =>
        rw [hr] at h
        cases h
        rw [ih hr, trimL_cons_ws rest hw]
      | none =>
        rw [hr] at h
        by_cases hd : dotPlusEnd (c :: rest) = true
        · rw [if_pos hd] at h
          cases h
          rfl
        · rw [if_neg hd] at h
          cases h
    · by_cases hd : dotPlusEnd (c :: rest) = true
      · rw [if_pos hd] at h
        cases h
        rfl
      · rw [if_neg hd] at h
        cases h

theorem matchTail_isSome (cs : List Char) (h0 : cs ≠ [])
    (h1 : ∀ c ∈ cs, isLineTerm c = false) : (matchTail cs).isSome := by
  induction cs with
  | nil => exact absurd rfl h0
  | cons c rest ih =>
    have hd : dotPlusEnd (c :: rest) = true := by
      simp only [dotPlusEnd, List.isEmpty_cons, Bool.not_false, Bool.true_and,
        List.all_eq_true]
      intro x hx
      simp [h1 x hx]
    unfold matchTail
    split
    · cases hr : matchTail rest <;> simp [hd]
    · simp [hd]

theorem splitAtComma_append (a r : List Char) (ha : ',' ∉ a) :
    splitAtComma (a ++ ',' :: r) = some (a, r) := by
  induction a with
  | nil => simp [splitAtComma]
  | cons c rest ih =>
    have hc : ¬ c = ',' := by
      intro h; exact ha (h ▸ List.mem_cons_self c rest)
    have hrest : ',' ∉ rest := fun h => ha (List.mem_cons_of_mem c h)
    simp [splitAtComma, hc, ih hrest]

theorem splitAtComma_eq (cs a r : List Char) (h : splitAtComma cs = some (a, r)) :
    cs = a ++ ',' :: r ∧ ',' ∉ a := by
  induction cs generalizing a with
  | nil => simp [splitAtComma] at h
  | cons c rest ih =>
    unfold splitAtComma at h
    split at h
    · rename_i hc
      cases h
      subst hc
      simp
    · rename_i hc
      cases hsp : splitAtComma rest with
      | none => rw [hsp] at h; simp at h
      | some p =>
        rw [hsp] at h
        simp only [Option.map_some'] at h
        cases h
        obtain ⟨h1, h2⟩ := ih p.1 hsp
        constructor
        · simp [h1]
        · intro hmem
          rcases List.mem_cons.mp hmem with h | h
          · exact hc h.symm
          · exact h2 h

theorem splitAtComma_isSome (cs : List Char) (h : ',' ∈ cs) :
    ∃ a r, splitAtComma cs = some (a, r) := by
  induction cs with
  | nil => simp at h
  | cons c rest ih =>
    by_cases hc : c = ','
    · exact ⟨[], rest, by simp [splitAtComma, hc]⟩
    · have : ',' ∈ rest := by
        rcases List.mem_cons.mp h with h | h
        · exact absurd h.symm hc
        · exact h
      obtain ⟨a, r, har⟩ := ih this
      exact ⟨c :: a, r, by simp [splitAtComma, hc, har]⟩

/-- Claim C2: every payload of the three-part comma form `X, Y, Z` (the
split taken at the first two commas only, so commas beyond the second
belong to the country) parses via strategy 1 to `name = "X, Y"` and
`country = Z`, every captured segment trimmed of surrounding
whitespace. -/
theorem claim_c2 (a b c : List Char)
    (ha : ',' ∉ a) (ha2 : a ≠ []) (hb : ',' ∉ b) (hb2 : b ≠ [])
    (hc : (matchTail c).isSome) :
    strategy1 (a ++ ',' :: (b ++ ',' :: c)) =
      some (trimL a ++ ',' :: ' ' :: trimL b, trimL c) ∧
    parseQRContent ⟨a ++ ',' :: (b ++ ',' :: c)⟩ =
      { name := ⟨trimL a ++ ',' :: ' ' :: trimL b⟩, country := ⟨trimL c⟩ } := by
  have hsp1 : splitAtComma (a ++ ',' :: (b ++ ',' :: c)) = some (a, b ++ ',' :: c) :=
    splitAtComma_append a (b ++ ',' :: c) ha
  have hsp2 : splitAtComma (b ++ ',' :: c) = some (b, c) :=
    splitAtComma_append b c hb
  obtain ⟨g2, hg2⟩ := Option.isSome_iff_exists.mp (matchWsGroup_isSome b hb2)
  obtain ⟨g3, hg3⟩ := Option.isSome_iff_exists.mp hc
  have hs1 : strategy1 (a ++ ',' :: (b ++ ',' :: c)) =
      some (trimL a ++ ',' :: ' ' :: trimL b, trimL c) := by
    unfold strategy1
    rw [hsp1]
    dsimp only
    rw [if_neg (by simpa using ha2)]
    rw [hsp2]
    dsimp only
    rw [hg2, hg3]
    dsimp only
    rw [matchWsGroup_trim b g2 hg2, matchTail_trim c g3 hg3]
  refine ⟨hs1, ?_⟩
  unfold parseQRContent parseCore
  rw [hs1]

theorem claim_c2_witness :
    parseQRContent "DOE, John, USA" = { name := "DOE, John", country := "USA" } := by
  have h := (claim_c2 "DOE".data " John".data " USA".data (by decide) (by decide)
    (by decide) (by decide) (by decide)).2
  have e1 : ("DOE, John, USA" : String) =
      ⟨"DOE".data ++ ',' :: (" John".data ++ ',' :: " USA".data)⟩ := by decide
  have e2 : ({ name := "DOE, John", country := "USA" } : Identity) =
      { name := ⟨trimL "DOE".data ++ ',' :: ' ' :: trimL " John".data⟩,
        country := ⟨trimL " USA".data⟩ } := by decide
  rw [e1, e2]
  exact h

/-- Claim C8 (amended): in the multi-line strategy the payload is split
on line breaks with blank lines dropped; when strategies 1-4 miss,
three *or more* non-blank lines yield `name = "line0, line1"` and
`country = line2` with lines beyond the third ignored (the code tests
`lines.length >= 3`, not an exact count), and exactly two non-blank
lines yield `name = line0`, `country = line1`, each line trimmed. -/
theorem claim_c8_amended (s : String)
    (h1 : strategy1 s.data = none) (h2 : strategy2 s.data = none)
    (h3 : strategy3 s.data = none) (h4 : strategy4 s.data = none) :
    (∀ l0 l1 l2 rest, nonBlankLines s.data = l0 :: l1 :: l2 :: rest →
      parseQRContent s =
        { name := ⟨trimL l0 ++ ',' :: ' ' :: trimL l1⟩, country := ⟨trimL l2⟩ }) ∧
    (∀ l0 l1, nonBlankLines s.data = [l0, l1] →
      parseQRContent s = { name := ⟨trimL l0⟩, country := ⟨trimL l1⟩ }) := by
  constructor
  · intro l0 l1 l2 rest hl
    unfold parseQRContent parseCore
    rw [h1, h2, h3, h4]
    unfold strategy5OrDefault
    rw [hl]
  · intro l0 l1 hl
    unfold parseQRContent parseCore
    rw [h1, h2, h3, h4]
    unfold strategy5OrDefault
    rw [hl]

theorem claim_c8_amended_witness :
    parseQRContent "DOE\nJohn\nUSA" = { name := "DOE, John", country := "USA" } ∧
    parseQRContent "DOE\nUSA" = { name := "DOE", country := "USA" } := by
  constructor
  · have h := (claim_c8_amended "DOE\nJohn\nUSA" (by decide) (by decide) (by decide)
      (by decide)).1 "DOE".data "John".data "USA".data [] (by decide)
    rw [h]
    decide
  · have h := (claim_c8_amended "DOE\nUSA" (by decide) (by decide) (by decide)
      (by decide)).2 "DOE".data "USA".data (by decide)
    rw [h]
    decide

/-- Claim C8 counterexample: a payload with four non-blank lines that
reaches strategy 5 does match the three-line shape (the code tests
`lines.length >= 3`), so it is parsed rather than rejected, refuting
"a payload with 4 or more non-blank lines matches neither shape". -/
theorem claim_c8_counterexample :
    strategy1 "A\nB\nC\nD".data = none ∧ strategy2 "A\nB\nC\nD".data = none ∧
    strategy3 "A\nB\nC\nD".data = none ∧ strategy4 "A\nB\nC\nD".data = none ∧
    (nonBlankLines "A\nB\nC\nD".data).length = 4 ∧
    parseQRContent "A\nB\nC\nD" = { name := "A, B", country := "C" } ∧
    parseQRContent "A\nB\nC\nD" ≠ { name := "", country := "" } := by decide

/-- Claim C7: `parseQRContent` is total — the exception-explicit rendering
always returns `ok` (the only fallible region, strategy 4's `try` body,
has its errors absorbed by the `catch`), and any input matched by no
strategy yields the empty identity. -/
theorem claim_c7 (s : String) :
    parseQRContentExc s = .ok (parseQRContent s) ∧
    ((strategy1 s.data = none ∧ strategy2 s.data = none ∧ strategy3 s.data = none ∧
      strategy4 s.data = none ∧ (nonBlankLines s.data).length ≤ 1) →
      parseQRContent s = { name := "", country := "" }) := by
  constructor
  · unfold parseQRContentExc parseQRContent parseCore strategy4
    cases strategy1 s.data with
    | some r => rfl
    | none =>
      cases strategy2 s.data with
      | some r => rfl
      | none =>
        cases strategy3 s.data with
        | some r => rfl
        | none =>
          cases strategy4core s.data with
          | error e => rfl
          | ok v => cases v <;> rfl
  · rintro ⟨h1, h2, h3, h4, h5⟩
    unfold parseQRContent parseCore
    rw [h1, h2, h3, h4]
    unfold strategy5OrDefault
    cases hn : nonBlankLines s.data with
    | nil => rfl
    | cons l0 t =>
      cases t with
      | nil => rfl
      | cons l1 t2 => rw [hn] at h5; simp at h5

theorem claim_c7_witness :
    parseQRContentExc "hello" = .ok (parseQRContent "hello") ∧
    parseQRContent "hello" = { name := "", country := "" } :=
  ⟨(claim_c7 "hello").1,
   (claim_c7 "hello").2 ⟨by decide, by decide, by decide, by decide, by decide⟩⟩

/-- Claim C10: when the policy accepts a payload whose parse fails
(empty name or country), the outcome is the invalid-format report — a
constructor distinct from the duplicate report — scanning state keeps
its records and its seen set unchanged, and no record is created. -/
theorem claim_c10 (st : ScannerState) (q : String) (now rid : Nat)
    (hacc : decideState st q now = .ACCEPT)
    (hfail : (parseQRContent q).name = "" ∨ (parseQRContent q).country = "") :
    handleQRDetectedStep st q now rid =
      ({ st with lastScannedCode := some q, lastScanTime := now }, .invalidFormat) ∧
    (handleQRDetectedStep st q now rid).1.records = st.records ∧
    (handleQRDetectedStep st q now rid).1.scannedQRCodes = st.scannedQRCodes ∧
    Outcome.invalidFormat ≠ Outcome.duplicate := by
  unfold decideState decideDedup at hacc
  by_cases hc1 : st.lastScannedCode = some q ∧ now - st.lastScanTime < st.scanCooldown
  · rw [if_pos hc1] at hacc; cases hacc
  · rw [if_neg hc1] at hacc
    by_cases hc2 : st.scannedQRCodes.contains q = true
    · rw [if_pos hc2] at hacc; cases hacc
    · have hmain : handleQRDetectedStep st q now rid =
          ({ st with lastScannedCode := some q, lastScanTime := now }, .invalidFormat) := by
        unfold handleQRDetectedStep
        rw [if_neg hc1, if_neg hc2]
        unfold processQRDataStep
        rw [if_neg (by
          rintro ⟨hn, hcn⟩
          rcases hfail with h | h
          · exact hn h
          · exact hcn h)]
      refine ⟨hmain, ?_, ?_, by simp⟩
      · rw [hmain]
      · rw [hmain]

theorem claim_c10_witness :
    handleQRDetectedStep initialState "hello" 5000 1 =
      ({ initialState with lastScannedCode := some "hello", lastScanTime := 5000 },
        .invalidFormat) ∧
    (handleQRDetectedStep initialState "hello" 5000 1).1.records = [] :=
  ⟨(claim_c10 initialState "hello" 5000 1 (by decide) (Or.inl (by decide))).1,
   ((claim_c10 initialState "hello" 5000 1 (by decide) (Or.inl (by decide))).2).1⟩

theorem mem_setAdd (s : List String) (x y : String) :
    y ∈ setAdd s x ↔ y ∈ s ∨ y = x := by
  unfold setAdd
  split
  · rename_i hc
    have hx : x ∈ s := by
      have hm : List.elem x s = true := hc
      exact List.elem_iff.mp hm
    constructor
    · exact Or.inl
    · rintro (h | rfl)
      · exact h
      · exact hx
  · simp

theorem mem_populate_fold (l : List AttendanceRecord) :
    ∀ (s : List String) (x : String),
    (x ∈ l.foldl (fun s r => if r.raw_qr_data ≠ "" then setAdd s r.raw_qr_data else s) s ↔
      x ∈ s ∨ ∃ r ∈ l, r.raw_qr_data = x ∧ x ≠ "") := by
  induction l with
  | nil => intro s x; simp
  | cons r rest ih =>
    intro s x
    simp only [List.foldl_cons]
    by_cases hr : r.raw_qr_data ≠ ""
    · rw [if_pos hr, ih]
      rw [mem_setAdd]
      constructor
      · rintro (⟨h | rfl⟩ | ⟨r', hr', hraw, hx⟩)
        · exact Or.inl h
        · exact Or.inr ⟨r, List.mem_cons_self r rest, rfl, hr⟩
        · exact Or.inr ⟨r', List.mem_cons_of_mem r hr', hraw, hx⟩
      · rintro (h | ⟨r', hr', hraw, hx⟩)
        · exact Or.inl (Or.inl h)
        · rcases List.mem_cons.mp hr' with rfl | h'
          · exact Or.inl (Or.inr hraw.symm)
          · exact Or.inr ⟨r', h', hraw, hx⟩
    · rw [if_neg hr, ih]
      push_neg at hr
      constructor
      · rintro (h | ⟨r', hr', hraw, hx⟩)
        · exact Or.inl h
        · exact Or.inr ⟨r', List.mem_cons_of_mem r hr', hraw, hx⟩
      · rintro (h | ⟨r', hr', hraw, hx⟩)
        · exact Or.inl h
        · rcases List.mem_cons.mp hr' with rfl | h'
          · exact absurd (hraw.symm ▸ hr) hx
          · exact Or.inr ⟨r', h', hraw, hx⟩

theorem mem_populateList (l : List AttendanceRecord) (x : String) :
    x ∈ populateList l ↔ ∃ r ∈ l, r.raw_qr_data = x ∧ x ≠ "" := by
  unfold populateList
  rw [mem_populate_fold]
  simp

theorem parseQRContent_empty : parseQRContent "" = { name := "", country := "" } := by
  decide

/-- A successfully parsed payload is itself nonempty. -/
theorem parse_ok_ne_empty (q : String)
    (h : (parseQRContent q).name ≠ "" ∧ (parseQRContent q).country ≠ "") : q ≠ "" := by
  intro hq
  subst hq
  rw [parseQRContent_empty] at h
  exact h.1 rfl

/-- The record `saveAttendance` builds for an accepted payload. -/
def newRecord (q : String) (now rid : Nat) : AttendanceRecord :=
  { id := rid, name := (parseQRContent q).name, country := (parseQRContent q).country,
    raw_qr_data := q, scan_timestamp := now }

theorem processQRDataStep_ok (st : ScannerState) (q : String) (now rid : Nat)
    (hp : (parseQRContent q).name ≠ "" ∧ (parseQRContent q).country ≠ "") :
    processQRDataStep st q now rid =
      ({ st with
          scannedQRCodes := populateList (st.records ++ [newRecord q now rid]),
          records := st.records ++ [newRecord q now rid] },
        .recorded (parseQRContent q).name (parseQRContent q).country) := by
  unfold processQRDataStep
  rw [if_pos hp]
  rfl

theorem processQRDataStep_fail (st : ScannerState) (q : String) (now rid : Nat)
    (hp : ¬ ((parseQRContent q).name ≠ "" ∧ (parseQRContent q).country ≠ "")) :
    processQRDataStep st q now rid = (st, .invalidFormat) := by
  unfold processQRDataStep
  rw [if_neg hp]

/-- Claim C1 (amended): `handleQRDetected` realizes the spec's decision
rules in order — same-payload cooldown suppression first (silent, even
for an already-seen payload), then the seen-set duplicate rejection,
then acceptance, which always updates `lastScannedCode`/`lastScanTime`
but adds the payload to the seen set (rebuilt from the updated records)
only when the payload parses successfully; the default cooldown is
2000 ms. -/
theorem claim_c1_amended :
    initialState.scanCooldown = 2000 ∧
    ∀ (st : ScannerState) (q : String) (now rid : Nat),
      (decideState st q now = .SUPPRESS_COOLDOWN →
        handleQRDetectedStep st q now rid = (st, .suppressed)) ∧
      (decideState st q now = .REJECT_DUPLICATE →
        handleQRDetectedStep st q now rid = (st, .duplicate)) ∧
      (decideState st q now = .ACCEPT →
        (handleQRDetectedStep st q now rid).1.lastScannedCode = some q ∧
        (handleQRDetectedStep st q now rid).1.lastScanTime = now ∧
        ((parseQRContent q).name ≠ "" ∧ (parseQRContent q).country ≠ "" →
          q ∈ (handleQRDetectedStep st q now rid).1.scannedQRCodes ∧
          ∃ r ∈ (handleQRDetectedStep st q now rid).1.records,
            r.raw_qr_data = q ∧ r.id = rid) ∧
        (¬ ((parseQRContent q).name ≠ "" ∧ (parseQRContent q).country ≠ "") →
          (handleQRDetectedStep st q now rid).1.scannedQRCodes = st.scannedQRCodes ∧
          (handleQRDetectedStep st q now rid).1.records = st.records)) := by
  refine ⟨rfl, fun st q now rid => ?_⟩
  by_cases hc1 : st.lastScannedCode = some q ∧ now - st.lastScanTime < st.scanCooldown
  · have hd : decideState st q now = .SUPPRESS_COOLDOWN := by
      unfold decideState decideDedup; rw [if_pos hc1]
    have hstep : handleQRDetectedStep st q now rid = (st, .suppressed) := by
      unfold handleQRDetectedStep; rw [if_pos hc1]
    refine ⟨fun _ => hstep, fun h => ?_, fun h => ?_⟩
    · rw [hd] at h; cases h
    · rw [hd] at h; cases h
  · by_cases hc2 : st.scannedQRCodes.contains q = true
    · have hd : decideState st q now = .REJECT_DUPLICATE := by
        unfold decideState decideDedup; rw [if_neg hc1, if_pos hc2]
      have hstep : handleQRDetectedStep st q now rid = (st, .duplicate) := by
        unfold handleQRDetectedStep; rw [if_neg hc1, if_pos hc2]
      refine ⟨fun h => ?_, fun _ => hstep, fun h => ?_⟩
      · rw [hd] at h; cases h
      · rw [hd] at h; cases h
    · have hd : decideState st q now = .ACCEPT := by
        unfold decideState decideDedup; rw [if_neg hc1, if_neg hc2]
      have hstep : handleQRDetectedStep st q now rid =
          processQRDataStep
            { st with lastScannedCode := some q, lastScanTime := now } q now rid := by
        unfold handleQRDetectedStep; rw [if_neg hc1, if_neg hc2]
      refine ⟨fun h => ?_, fun h => ?_, fun _ => ?_⟩
      · rw [hd] at h; cases h
      · rw [hd] at h; cases h
      by_cases hp : (parseQRContent q).name ≠ "" ∧ (parseQRContent q).country ≠ ""
      · have hq : q ≠ "" := parse_ok_ne_empty q hp
        rw [hstep, processQRDataStep_ok _ _ _ _ hp]
        refine ⟨rfl, rfl, fun _ => ⟨?_, ?_⟩, fun hcon => absurd hp hcon⟩
        · rw [mem_populateList]
          exact ⟨newRecord q now rid, by simp, rfl, hq⟩
        · exact ⟨newRecord q now rid, by simp, rfl, rfl⟩
      · rw [hstep, processQRDataStep_fail _ _ _ _ hp]
        exact ⟨rfl, rfl, fun hcon => absurd hcon hp, fun _ => ⟨rfl, rfl⟩⟩

theorem claim_c1_amended_witness :
    handleQRDetectedStep
      { lastScannedCode := some "x", lastScanTime := 1000, scanCooldown := 2000,
        scannedQRCodes := ["x"], records := [] } "x" 1500 1 =
      ({ lastScannedCode := some "x", lastScanTime := 1000, scanCooldown := 2000,
         scannedQRCodes := ["x"], records := [] }, .suppressed) ∧
    "DOE, John, USA" ∈
      (handleQRDetectedStep initialState "DOE, John, USA" 9000 3).1.scannedQRCodes := by
  constructor
  · exact ((claim_c1_amended.2
      { lastScannedCode := some "x", lastScanTime := 1000, scanCooldown := 2000,
        scannedQRCodes := ["x"], records := [] } "x" 1500 1).1) (by decide)
  · exact ((((claim_c1_amended.2 initialState "DOE, John, USA" 9000 3).2.2)
      (by decide)).2.2.1 (by decide)).1

/-- Claim C1 counterexample: the policy accepts the payload `hello`, yet
after the step the payload is not in the seen set — the code only adds
payloads whose parse succeeds, refuting "the result is ACCEPT, after
which payload is added to seenSet". -/
theorem claim_c1_counterexample :
    decideState initialState "hello" 5000 = .ACCEPT ∧
    (handleQRDetectedStep initialState "hello" 5000 1).1.scannedQRCodes = [] ∧
    ¬ "hello" ∈ (handleQRDetectedStep initialState "hello" 5000 1).1.scannedQRCodes := by
  decide

/-- The spec's seen-set invariant: a payload is in the seen set iff some
live record carries it as `raw_qr_data`. -/
def SeenInv (st : ScannerState) : Prop :=
  ∀ p : String, p ∈ st.scannedQRCodes ↔ ∃ r ∈ st.records, r.raw_qr_data = p

theorem populate_establishes (records : List AttendanceRecord)
    (hne : ∀ r ∈ records, r.raw_qr_data ≠ "") (p : String) :
    p ∈ populateList records ↔ ∃ r ∈ records, r.raw_qr_data = p := by
  rw [mem_populateList]
  constructor
  · rintro ⟨r, hr, hraw, _⟩
    exact ⟨r, hr, hraw⟩
  · rintro ⟨r, hr, hraw⟩
    exact ⟨r, hr, hraw, hraw ▸ hne r hr⟩

/-- Claim C3 (amended): rebuilding the seen set from the records,
accepting a payload, deleting a record, and clearing all records all
preserve the invariant "a payload is in the seen set iff some live
record has it as `raw_qr_data`" (records of an active session carry
nonempty payloads); clearing the blocked set alone does *not* preserve
it — that operation deliberately empties the seen set while the records
survive. -/
theorem claim_c3_amended :
    (∀ st : ScannerState, (∀ r ∈ st.records, r.raw_qr_data ≠ "") →
      SeenInv (populateScannedQRCodesStep st)) ∧
    (∀ (st : ScannerState) (q : String) (now rid : Nat),
      SeenInv st → (∀ r ∈ st.records, r.raw_qr_data ≠ "") →
      SeenInv (handleQRDetectedStep st q now rid).1 ∧
      (∀ r ∈ (handleQRDetectedStep st q now rid).1.records, r.raw_qr_data ≠ "")) ∧
    (∀ (st : ScannerState) (rid : Nat), (∀ r ∈ st.records, r.raw_qr_data ≠ "") →
      SeenInv (deleteRecordStep st rid) ∧
      (∀ r ∈ (deleteRecordStep st rid).records, r.raw_qr_data ≠ "")) ∧
    (∀ st : ScannerState, SeenInv (clearAllAttendanceStep st)) := by
  refine ⟨?_, ?_, ?_, ?_⟩
  · intro st hne p
    exact populate_establishes st.records hne p
  · intro st q now rid hinv hne
    by_cases hc1 : st.lastScannedCode = some q ∧ now - st.lastScanTime < st.scanCooldown
    · have hstep : handleQRDetectedStep st q now rid = (st, .suppressed) := by
        unfold handleQRDetectedStep; rw [if_pos hc1]
      rw [hstep]
      exact ⟨hinv, hne⟩
    · by_cases hc2 : st.scannedQRCodes.contains q = true
      · have hstep : handleQRDetectedStep st q now rid = (st, .duplicate) := by
          unfold handleQRDetectedStep; rw [if_neg hc1, if_pos hc2]
        rw [hstep]
        exact ⟨hinv, hne⟩
      · have hstep : handleQRDetectedStep st q now rid =
            processQRDataStep
              { st with lastScannedCode := some q, lastScanTime := now } q now rid := by
          unfold handleQRDetectedStep; rw [if_neg hc1, if_neg hc2]
        by_cases hp : (parseQRContent q).name ≠ "" ∧ (parseQRContent q).country ≠ ""
        · have hq : q ≠ "" := parse_ok_ne_empty q hp
          rw [hstep, processQRDataStep_ok _ _ _ _ hp]
          have hne' : ∀ r ∈ st.records ++ [newRecord q now rid], r.raw_qr_data ≠ "" := by
            intro r hr
            rcases List.mem_append.mp hr with h | h
            · exact hne r h
            · rw [List.mem_singleton.mp h]
              exact hq
          exact ⟨fun p => populate_establishes _ hne' p, hne'⟩
        · rw [hstep, processQRDataStep_fail _ _ _ _ hp]
          exact ⟨hinv, hne⟩
  · intro st rid hne
    have hne' : ∀ r ∈ st.records.filter (fun r => r.id ≠ rid), r.raw_qr_data ≠ "" :=
      fun r hr => hne r (List.mem_of_mem_filter hr)
    unfold deleteRecordStep
    exact ⟨fun p => populate_establishes _ hne' p, hne'⟩
  · intro st p
    simp [clearAllAttendanceStep, populateList]

theorem claim_c3_amended_witness :
    SeenInv (handleQRDetectedStep initialState "DOE, John, USA" 10000 1).1 ∧
    SeenInv (clearAllAttendanceStep initialState) :=
  ⟨(claim_c3_amended.2.1 initialState "DOE, John, USA" 10000 1
      (fun p => by simp [initialState]) (by simp [initialState])).1,
   claim_c3_amended.2.2.2 initialState⟩

/-- Claim C3 counterexample: after one accepted scan the invariant
holds, but `clearScannedQRCodes` — one of the claim's covered
operations — breaks it: the seen set becomes empty while the record
with that payload is still live. -/
theorem claim_c3_counterexample :
    SeenInv (handleQRDetectedStep initialState "DOE, John, USA" 10000 1).1 ∧
    ¬ SeenInv (clearScannedQRCodesStep
        (handleQRDetectedStep initialState "DOE, John, USA" 10000 1).1) := by
  have hst : (handleQRDetectedStep initialState "DOE, John, USA" 10000 1).1 =
      { lastScannedCode := some "DOE, John, USA", lastScanTime := 10000,
        scanCooldown := 2000, scannedQRCodes := ["DOE, John, USA"],
        records := [{ id := 1, name := "DOE, John", country := "USA",
                      raw_qr_data := "DOE, John, USA", scan_timestamp := 10000 }] } := by
    decide
  rw [hst]
  constructor
  · intro p
    constructor
    · intro hp
      have hp' : p = "DOE, John, USA" := List.mem_singleton.mp hp
      exact ⟨{ id := 1, name := "DOE, John", country := "USA",
               raw_qr_data := "DOE, John, USA", scan_timestamp := 10000 },
             List.mem_singleton_self _, hp'.symm⟩
    · rintro ⟨r, hr, hraw⟩
      have hr' := List.mem_singleton.mp hr
      subst hr'
      rw [← hraw]
      exact List.mem_singleton_self _
  · intro hinv
    have h := (hinv "DOE, John, USA").mpr
      ⟨{ id := 1, name := "DOE, John", country := "USA",
         raw_qr_data := "DOE, John, USA", scan_timestamp := 10000 },
       List.mem_singleton_self _, rfl⟩
    exact List.not_mem_nil _ h

/-- Claim C9: accepting a payload (with a fresh record id) and then
deleting the created record leaves the payload out of the seen set, and
a later policy decision for it, once the cooldown has lapsed, is ACCEPT
again. -/
theorem claim_c9 (st : ScannerState) (P : String) (now1 now2 rid : Nat)
    (hacc : decideState st P now1 = .ACCEPT)
    (hparse : (parseQRContent P).name ≠ "" ∧ (parseQRContent P).country ≠ "")
    (hfresh : ∀ r ∈ st.records, r.id ≠ rid)
    (hnorec : ∀ r ∈ st.records, r.raw_qr_data ≠ P)
    (hcool : st.scanCooldown ≤ now2 - now1) :
    (handleQRDetectedStep st P now1 rid).2 =
      .recorded (parseQRContent P).name (parseQRContent P).country ∧
    ¬ P ∈ (deleteRecordStep (handleQRDetectedStep st P now1 rid).1 rid).scannedQRCodes ∧
    decideState (deleteRecordStep (handleQRDetectedStep st P now1 rid).1 rid) P now2 =
      .ACCEPT := by
  unfold decideState decideDedup at hacc
  by_cases hc1 : st.lastScannedCode = some P ∧ now1 - st.lastScanTime < st.scanCooldown
  · rw [if_pos hc1] at hacc; cases hacc
  rw [if_neg hc1] at hacc
  by_cases hc2 : st.scannedQRCodes.contains P = true
  · rw [if_pos hc2] at hacc; cases hacc
  have hstep : handleQRDetectedStep st P now1 rid =
      ({ st with
          lastScannedCode := some P,
          lastScanTime := now1,
          scannedQRCodes := populateList (st.records ++ [newRecord P now1 rid]),
          records := st.records ++ [newRecord P now1 rid] },
        .recorded (parseQRContent P).name (parseQRContent P).country) := by
    unfold handleQRDetectedStep
    rw [if_neg hc1, if_neg hc2, processQRDataStep_ok _ _ _ _ hparse]
  have hfilter : (st.records ++ [newRecord P now1 rid]).filter (fun r => r.id ≠ rid) =
      st.records := by
    rw [List.filter_append]
    have h1 : st.records.filter (fun r => decide (r.id ≠ rid)) = st.records :=
      List.filter_eq_self.mpr (fun a ha => by simp [hfresh a ha])
    have h2 : [newRecord P now1 rid].filter (fun r => decide (r.id ≠ rid)) = [] := by
      simp [newRecord]
    rw [h1, h2, List.append_nil]
  have hdel : deleteRecordStep (handleQRDetectedStep st P now1 rid).1 rid =
      deleteRecordStep
        { st with
          lastScannedCode := some P,
          lastScanTime := now1,
          scannedQRCodes := populateList (st.records ++ [newRecord P now1 rid]),
          records := st.records ++ [newRecord P now1 rid] } rid := by
    rw [hstep]
  have h2rec : (deleteRecordStep (handleQRDetectedStep st P now1 rid).1 rid).records =
      st.records := by
    rw [hdel]; unfold deleteRecordStep; exact hfilter
  have h2seen :
      (deleteRecordStep (handleQRDetectedStep st P now1 rid).1 rid).scannedQRCodes =
      populateList st.records := by
    rw [hdel]; unfold deleteRecordStep; dsimp only; rw [hfilter]
  have h2last :
      (deleteRecordStep (handleQRDetectedStep st P now1 rid).1 rid).lastScannedCode =
      some P := by
    rw [hdel]; unfold deleteRecordStep; rfl
  have h2time :
      (deleteRecordStep (handleQRDetectedStep st P now1 rid).1 rid).lastScanTime =
      now1 := by
    rw [hdel]; unfold deleteRecordStep; rfl
  have h2cd :
      (deleteRecordStep (handleQRDetectedStep st P now1 rid).1 rid).scanCooldown =
      st.scanCooldown := by
    rw [hdel]; unfold deleteRecordStep; rfl
  have hnotmem :
      ¬ P ∈ (deleteRecordStep (handleQRDetectedStep st P now1 rid).1 rid).scannedQRCodes := by
    rw [h2seen, mem_populateList]
    rintro ⟨r, hr, hraw, _⟩
    exact hnorec r hr hraw
  refine ⟨by rw [hstep], hnotmem, ?_⟩
  unfold decideState decideDedup
  rw [h2last, h2time, h2cd]
  rw [if_neg (fun h => absurd h.2 (Nat.not_lt.mpr hcool))]
  rw [if_neg (fun hcont : _ = true =>
    hnotmem (List.elem_iff.mp hcont))]

theorem claim_c9_witness :
    (handleQRDetectedStep initialState "DOE, John, USA" 1000 7).2 =
      .recorded "DOE, John" "USA" ∧
    ¬ "DOE, John, USA" ∈
      (deleteRecordStep (handleQRDetectedStep initialState "DOE, John, USA" 1000 7).1
        7).scannedQRCodes ∧
    decideState
      (deleteRecordStep (handleQRDetectedStep initialState "DOE, John, USA" 1000 7).1 7)
      "DOE, John, USA" 5000 = .ACCEPT := by
  have h := claim_c9 initialState "DOE, John, USA" 1000 5000 7 (by decide)
    ⟨by decide, by decide⟩ (by simp [initialState]) (by simp [initialState]) (by decide)
  have hn : parseQRContent "DOE, John, USA" =
      { name := "DOE, John", country := "USA" } := by decide
  rw [hn] at h
  exact h

theorem insertDescTs_perm (r : AttendanceRecord) (l : List AttendanceRecord) :
    (insertDescTs r l).Perm (r :: l) := by
  induction l with
  | nil => exact List.Perm.refl _
  | cons x xs ih =>
    unfold insertDescTs
    split
    · exact List.Perm.refl _
    · exact (ih.cons x).trans (List.Perm.swap r x xs)

theorem sortDescTs_perm (l : List AttendanceRecord) : (sortDescTs l).Perm l := by
  induction l with
  | nil => exact List.Perm.refl _
  | cons x xs ih =>
    exact (insertDescTs_perm x (sortDescTs xs)).trans (ih.cons x)

theorem insertDescTs_sorted (r : AttendanceRecord) (l : List AttendanceRecord)
    (h : l.Pairwise (fun a b => b.scan_timestamp ≤ a.scan_timestamp)) :
    (insertDescTs r l).Pairwise (fun a b => b.scan_timestamp ≤ a.scan_timestamp) := by
  induction l with
  | nil => simp [insertDescTs]
  | cons x xs ih =>
    rw [List.pairwise_cons] at h
    unfold insertDescTs
    split
    · rename_i hle
      rw [List.pairwise_cons]
      refine ⟨?_, List.pairwise_cons.mpr h⟩
      intro y hy
      rcases List.mem_cons.mp hy with rfl | hy'
      · exact hle
      · exact le_trans (h.1 y hy') hle
    · rename_i hgt
      rw [List.pairwise_cons]
      refine ⟨?_, ih h.2⟩
      intro y hy
      rcases List.mem_cons.mp ((insertDescTs_perm r xs).mem_iff.mp hy) with rfl | h'
      · exact le_of_not_le hgt
      · exact h.1 y h'

theorem sortDescTs_sorted (l : List AttendanceRecord) :
    (sortDescTs l).Pairwise (fun a b => b.scan_timestamp ≤ a.scan_timestamp) := by
  induction l with
  | nil => simp [sortDescTs]
  | cons x xs ih => exact insertDescTs_sorted x (sortDescTs xs) ih

/-- Undo CSV quote doubling: every `""` collapses back to `"`. -/
def unescCsv : List Char → List Char
  | [] => []
  | [c] => [c]
  | c :: d :: rest =>
    if c = '"' ∧ d = '"' then '"' :: unescCsv rest
    else c :: unescCsv (d :: rest)

theorem unescCsv_escQuotes : ∀ cs, unescCsv (escQuotes cs) = cs := by
  intro cs
  induction cs with
  | nil => rfl
  | cons c rest ih =>
    by_cases hc : c = '"'
    · subst hc
      show unescCsv ('"' :: '"' :: escQuotes rest) = '"' :: rest
      unfold unescCsv
      rw [if_pos ⟨rfl, rfl⟩, ih]
    · have he : escQuotes (c :: rest) = c :: escQuotes rest := by
        simp only [escQuotes]
        rw [if_neg hc]
      rw [he]
      cases hrest : escQuotes rest with
      | nil =>
        have hr : [] = rest := by rw [hrest] at ih; exact ih
        rw [← hr]
        rfl
      | cons d ds =>
        show unescCsv (c :: d :: ds) = c :: rest
        unfold unescCsv
        rw [if_neg (fun h => hc h.1), ← hrest, ih]

/-- A string consisting of a double-quoted body. -/
def wrappedInQuotes (s : String) : Prop :=
  ∃ t : List Char, s.data = '"' :: (t ++ ['"'])

/-- Claim C4 (amended): the export renders the records newest-scan-first
under the exact header row, and in every data row the Name, Country,
Scan Date, Scan Time and Full Timestamp fields are quote-wrapped —
with embedded quotes doubled (invertibly) in Name and Country — while
the leading `No.` field is the bare row number, not quote-wrapped. -/
theorem claim_c4_amended (fd ft ff : Nat → String) (records : List AttendanceRecord)
    (hne : records.isEmpty = false) :
    exportToCSV fd ft ff records =
      some (String.intercalate "\n"
        (csvHeader :: (sortDescTs records).enum.map (fun p => csvRow fd ft ff p.1 p.2))) ∧
    (sortDescTs records).Perm records ∧
    (sortDescTs records).Pairwise (fun a b => b.scan_timestamp ≤ a.scan_timestamp) ∧
    csvHeader = "No.,Name,Country,Scan Date,Scan Time,Full Timestamp" ∧
    ∀ (i : Nat) (r : AttendanceRecord),
      csvRow fd ft ff i r = String.intercalate ","
        [toString (i + 1),
         ⟨quoteWrap (escQuotes r.name.data)⟩,
         ⟨quoteWrap (escQuotes r.country.data)⟩,
         ⟨quoteWrap (fd r.scan_timestamp).data⟩,
         ⟨quoteWrap (ft r.scan_timestamp).data⟩,
         ⟨quoteWrap (ff r.scan_timestamp).data⟩] ∧
      wrappedInQuotes ⟨quoteWrap (escQuotes r.name.data)⟩ ∧
      wrappedInQuotes ⟨quoteWrap (escQuotes r.country.data)⟩ ∧
      wrappedInQuotes ⟨quoteWrap (fd r.scan_timestamp).data⟩ ∧
      wrappedInQuotes ⟨quoteWrap (ft r.scan_timestamp).data⟩ ∧
      wrappedInQuotes ⟨quoteWrap (ff r.scan_timestamp).data⟩ ∧
      unescCsv (escQuotes r.name.data) = r.name.data ∧
      unescCsv (escQuotes r.country.data) = r.country.data := by
  refine ⟨?_, sortDescTs_perm records, sortDescTs_sorted records, rfl, ?_⟩
  · unfold exportToCSV
    rw [hne]
    rfl
  · intro i r
    exact ⟨rfl, ⟨escQuotes r.name.data, rfl⟩, ⟨escQuotes r.country.data, rfl⟩,
      ⟨(fd r.scan_timestamp).data, rfl⟩, ⟨(ft r.scan_timestamp).data, rfl⟩,
      ⟨(ff r.scan_timestamp).data, rfl⟩,
      unescCsv_escQuotes _, unescCsv_escQuotes _⟩

theorem claim_c4_amended_witness :
    exportToCSV (fun _ => "D") (fun _ => "T") (fun _ => "F")
      [{ id := 1, name := "Alice", country := "USA",
         raw_qr_data := "Alice, USA", scan_timestamp := 5 }] =
      some "No.,Name,Country,Scan Date,Scan Time,Full Timestamp\n1,\"Alice\",\"USA\",\"D\",\"T\",\"F\"" := by
  have h := (claim_c4_amended (fun _ => "D") (fun _ => "T") (fun _ => "F")
    [{ id := 1, name := "Alice", country := "USA",
       raw_qr_data := "Alice, USA", scan_timestamp := 5 }] (by decide)).1
  rw [h]
  decide

/-- Claim C4 counterexample: in the produced CSV the data row's leading
`No.` field is the bare number `1`, not wrapped in double quotes,
refuting "every field is wrapped in double quotes". -/
theorem claim_c4_counterexample :
    exportToCSV (fun _ => "D") (fun _ => "T") (fun _ => "F")
      [{ id := 1, name := "Alice", country := "USA",
         raw_qr_data := "Alice, USA", scan_timestamp := 5 }] =
      some "No.,Name,Country,Scan Date,Scan Time,Full Timestamp\n1,\"Alice\",\"USA\",\"D\",\"T\",\"F\"" ∧
    csvRow (fun _ => "D") (fun _ => "T") (fun _ => "F") 0
      { id := 1, name := "Alice", country := "USA",
        raw_qr_data := "Alice, USA", scan_timestamp := 5 } =
      String.intercalate ","
        ("1" :: ["\"Alice\"", "\"USA\"", "\"D\"", "\"T\"", "\"F\""]) ∧
    ¬ wrappedInQuotes "1" := by
  refine ⟨by decide, by decide, ?_⟩
  rintro ⟨t, ht⟩
  have ht' : ['1'] = '"' :: (t ++ ['"']) := ht
  injection ht' with h1 h2
  exact absurd h1 (by decide)

/-- Claim C6 (amended): when strategies 1-3 miss and the payload is
well-formed JSON, an object carrying *non-empty string* `name` and
`country` fields parses to those two trimmed values; an object whose
`name` is falsy but which carries non-empty string `lastName`,
`firstName` and `country` fields parses to `"LASTNAME, FirstName"` plus
the trimmed country; and any failure of the structured form - an
exception inside the block (`.error`) or a fall-out without returning
(`.ok none`, as non-object input and falsy fields produce) - is a
strategy miss that falls through to the line-split strategy, not an
error.  (The unamended claim fails for a present but empty `name`
field, which JavaScript truthiness rejects.) -/
theorem claim_c6_amended (s : String)
    (h1 : strategy1 s.data = none) (h2 : strategy2 s.data = none)
    (h3 : strategy3 s.data = none) :
    (∀ (kvs : List (String × JVal)) (n c : String),
      jsonParseL s.data = some (.obj kvs) →
      objGet kvs "name" = some (.str n) → n ≠ "" →
      objGet kvs "country" = some (.str c) → c ≠ "" →
      parseQRContent s = { name := ⟨trimL n.data⟩, country := ⟨trimL c.data⟩ }) ∧
    (∀ (kvs : List (String × JVal)) (ln fn c : String),
      jsonParseL s.data = some (.obj kvs) →
      truthy (objGet kvs "name") = false →
      objGet kvs "lastName" = some (.str ln) → ln ≠ "" →
      objGet kvs "firstName" = some (.str fn) → fn ≠ "" →
      objGet kvs "country" = some (.str c) → c ≠ "" →
      parseQRContent s =
        { name := ⟨trimL ln.data ++ ',' :: ' ' :: trimL fn.data⟩,
          country := ⟨trimL c.data⟩ }) ∧
    (strategy4core s.data = .error () ∨ strategy4core s.data = .ok none →
      parseQRContent s =
        { name := ⟨(strategy5OrDefault s.data).1⟩,
          country := ⟨(strategy5OrDefault s.data).2⟩ }) := by
  refine ⟨?_, ?_, ?_⟩
  · intro kvs n c hj hn hn' hc hc'
    have h4 : strategy4 s.data = some (trimL n.data, trimL c.data) := by
      unfold strategy4 strategy4core
      rw [hj]
      simp only [jsGetField]
      rw [hn, hc]
      rw [if_pos (by simp [truthy, hn', hc'])]
      simp only [jsTrimProp]
    unfold parseQRContent parseCore
    rw [h1, h2, h3, h4]
  · intro kvs ln fn c hj hnf hln hln' hfn hfn' hc hc'
    have h4 : strategy4 s.data =
        some (trimL ln.data ++ ',' :: ' ' :: trimL fn.data, trimL c.data) := by
      unfold strategy4 strategy4core
      rw [hj]
      simp only [jsGetField]
      rw [hln, hfn, hc]
      rw [if_neg (by rw [hnf]; simp)]
      rw [if_pos (by simp [truthy, hln', hfn', hc'])]
      simp only [jsTrimProp]
    unfold parseQRContent parseCore
    rw [h1, h2, h3, h4]
  · intro hmiss
    have h4 : strategy4 s.data = none := by
      unfold strategy4
      rcases hmiss with herr | hnone
      · rw [herr]
      · rw [hnone]
    unfold parseQRContent parseCore
    rw [h1, h2, h3, h4]

theorem claim_c6_amended_witness :
    parseQRContent "\x7b\"name\":\"John\",\n\"country\":\n\"USA\"\x7d" =
      { name := "John", country := "USA" } ∧
    parseQRContent "42" = { name := "", country := "" } := by
  constructor
  · have h := (claim_c6_amended "\x7b\"name\":\"John\",\n\"country\":\n\"USA\"\x7d"
      (by decide) (by decide) (by decide)).1
      [("name", .str "John"), ("country", .str "USA")] "John" "USA"
      rfl rfl (by decide) rfl (by decide)
    rw [h]
    decide
  · have h := (claim_c6_amended "42" (by decide) (by decide) (by decide)).2.2
      (Or.inr rfl)
    rw [h]
    decide

/-- Claim C6 counterexample: a well-formed JSON object payload with
both a `name` and a `country` field, reaching the structured strategy,
is *not* parsed to those two values when the `name` value is the empty
string — JavaScript truthiness sends it past both field shapes into the
line-split strategy. -/
theorem claim_c6_counterexample :
    strategy1 "\x7b\"name\":\"\",\n\"country\":\n\"USA\"\x7d".data = none ∧
    strategy2 "\x7b\"name\":\"\",\n\"country\":\n\"USA\"\x7d".data = none ∧
    strategy3 "\x7b\"name\":\"\",\n\"country\":\n\"USA\"\x7d".data = none ∧
    jsonParseL "\x7b\"name\":\"\",\n\"country\":\n\"USA\"\x7d".data =
      some (.obj [("name", .str ""), ("country", .str "USA")]) ∧
    parseQRContent "\x7b\"name\":\"\",\n\"country\":\n\"USA\"\x7d" ≠
      { name := "", country := "USA" } ∧
    parseQRContent "\x7b\"name\":\"\",\n\"country\":\n\"USA\"\x7d" =
      { name := "\x7b\"name\":\"\",, \"country\":", country := "\"USA\"\x7d" } :=
  ⟨by decide, by decide, by decide, rfl, by decide, by decide⟩

/-- `rest` is a strict suffix of `cs`, and the character standing
immediately before it in `cs` is not a comma. -/
def SufNC (cs rest : List Char) : Prop :=
  ∃ l c, c ≠ ',' ∧ cs = l ++ c :: rest

/-- `rest` is a (possibly equal) suffix of `cs`. -/
def Reaches (cs rest : List Char) : Prop := ∃ pre, cs = pre ++ rest

theorem reaches_refl (cs : List Char) : Reaches cs cs := ⟨[], rfl⟩

theorem reaches_trans {a b c : List Char} (h1 : Reaches a b) (h2 : Reaches b c) :
    Reaches a c := by
  obtain ⟨p1, rfl⟩ := h1
  obtain ⟨p2, rfl⟩ := h2
  exact ⟨p1 ++ p2, by simp⟩

theorem reaches_cons (c : Char) (cs : List Char) : Reaches (c :: cs) cs := ⟨[c], rfl⟩

theorem reaches_skip (cs : List Char) : Reaches cs (skipJsonWs cs) :=
  ⟨cs.takeWhile isJsonWs, (List.takeWhile_append_dropWhile _ _).symm⟩

theorem sufNC_reaches {a b : List Char} (h : SufNC a b) : Reaches a b := by
  obtain ⟨l, c, _, rfl⟩ := h
  exact ⟨l ++ [c], by simp⟩

theorem reaches_sufNC {a b c : List Char} (h1 : Reaches a b) (h2 : SufNC b c) :
    SufNC a c := by
  obtain ⟨p, rfl⟩ := h1
  obtain ⟨l, d, hd, rfl⟩ := h2
  exact ⟨p ++ l, d, hd, by simp⟩

theorem sufNC_head {c : Char} (rest : List Char) (hc : c ≠ ',') :
    SufNC (c :: rest) rest := ⟨[], c, hc, rfl⟩

theorem sufNC_cons (c : Char) {cs rest : List Char} (h : SufNC cs rest) :
    SufNC (c :: cs) rest :=
  reaches_sufNC (reaches_cons c cs) h

/-- A `takeWhile`/`dropWhile` split headed by a known non-comma
character gives a non-comma suffix boundary, whether or not anything is
taken. -/
theorem append_last_decomp (L R : List Char) (hne : L ≠ []) :
    L ++ R = L.dropLast ++ L.getLast hne :: R := by
  conv_lhs => rw [← List.dropLast_append_getLast hne]
  simp

theorem sufNC_of_drop (c : Char) (p : Char → Bool) (hp : ∀ x, p x = true → x ≠ ',')
    (hc : c ≠ ',') (cs' : List Char) :
    SufNC (c :: cs') (cs'.dropWhile p) := by
  have hsplit : cs' = cs'.takeWhile p ++ cs'.dropWhile p :=
    (List.takeWhile_append_dropWhile p cs').symm
  cases ht : cs'.takeWhile p with
  | nil =>
    rw [ht, List.nil_append] at hsplit
    refine ⟨[], c, hc, ?_⟩
    rw [List.nil_append, ← hsplit]
  | cons d t =>
    have hne : d :: t ≠ [] := by simp
    have hmem : (d :: t).getLast hne ∈ cs'.takeWhile p := by
      rw [ht]
      exact List.getLast_mem hne
    have hpd : p ((d :: t).getLast hne) = true := List.mem_takeWhile_imp hmem
    refine ⟨c :: (d :: t).dropLast, (d :: t).getLast hne, hp _ hpd, ?_⟩
    rw [List.cons_append,
      ← append_last_decomp (d :: t) (List.dropWhile p cs') hne, ← ht, ← hsplit]

theorem pStringRest_sufNC : ∀ (fuel : Nat) (cs s rest : List Char),
    pStringRest fuel cs = some (s, rest) → SufNC cs rest := by
  intro fuel
  induction fuel with
  | zero => intro cs s rest h; simp [pStringRest] at h
  | succ fuel ih =>
    intro cs s rest h
    cases cs with
    | nil => simp [pStringRest] at h
    | cons c cs' =>
      simp only [pStringRest] at h
      by_cases hq : c = '"'
      · rw [if_pos hq] at h
        injection h with h1
        injection h1 with h2 h3
        subst h3
        subst hq
        exact sufNC_head cs' (by decide)
      · rw [if_neg hq] at h
        by_cases hb : c = '\\'
        · rw [if_pos hb] at h
          cases cs' with
          | nil => cases h
          | cons e rest2 =>
            dsimp only at h
            by_cases hu : e = 'u'
            · rw [if_pos hu] at h
              cases rest2 with
              | nil => cases h
              | cons h1c r2 =>
                cases r2 with
                | nil => cases h
                | cons h2c r3 =>
                  cases r3 with
                  | nil => cases h
                  | cons h3c r4 =>
                    cases r4 with
                    | nil => cases h
                    | cons h4c rest3 =>
                      dsimp only at h
                      split at h
                      · rw [Option.map_eq_some'] at h
                        obtain ⟨⟨s', r'⟩, hp, heq⟩ := h
                        injection heq with hA hB
                        exact hB ▸ sufNC_cons c (sufNC_cons e (sufNC_cons h1c
                          (sufNC_cons h2c (sufNC_cons h3c (sufNC_cons h4c
                            (ih rest3 s' r' hp))))))
                      · cases h
            · rw [if_neg hu] at h
              split at h
              · rw [Option.map_eq_some'] at h
                obtain ⟨⟨s', r'⟩, hp, heq⟩ := h
                injection heq with hA hB
                exact hB ▸ sufNC_cons c (sufNC_cons e (ih rest2 s' r' hp))
              · cases h
        · rw [if_neg hb] at h
          by_cases h32 : c.val < 32
          · rw [if_pos h32] at h
            cases h
          · rw [if_neg h32] at h
            rw [Option.map_eq_some'] at h
            obtain ⟨⟨s', r'⟩, hp, heq⟩ := h
            injection heq with hA hB
            exact hB ▸ sufNC_cons c (ih cs' s' r' hp)

theorem sufNC_trans {a b c : List Char} (h1 : SufNC a b) (h2 : SufNC b c) :
    SufNC a c :=
  reaches_sufNC (sufNC_reaches h1) h2

theorem isDigit_ne_comma (x : Char) (hx : x.isDigit = true) : x ≠ ',' := by
  intro he
  subst he
  exact absurd hx (by decide)

theorem pNumInt_sufNC (cs ds rest : List Char) (h : pNumInt cs = some (ds, rest)) :
    SufNC cs rest := by
  cases cs with
  | nil => simp [pNumInt] at h
  | cons c cs' =>
    simp only [pNumInt] at h
    by_cases h0 : c = '0'
    · rw [if_pos h0] at h
      injection h with h1
      injection h1 with h2 h3
      subst h0
      exact h3 ▸ sufNC_head cs' (by decide)
    · rw [if_neg h0] at h
      by_cases hd : c.isDigit = true
      · rw [if_pos hd] at h
        injection h with h1
        injection h1 with h2 h3
        exact h3 ▸ sufNC_of_drop c Char.isDigit isDigit_ne_comma
          (isDigit_ne_comma c hd) cs'
      · rw [if_neg hd] at h
        cases h

theorem pFracOpt_cases (cs fs rest : List Char) (h : pFracOpt cs = some (fs, rest)) :
    rest = cs ∨ SufNC cs rest := by
  unfold pFracOpt at h
  split at h
  · rename_i r
    dsimp only at h
    split at h
    · cases h
    · injection h with h1
      injection h1 with h2 h3
      right
      exact h3 ▸ sufNC_of_drop '.' Char.isDigit isDigit_ne_comma (by decide) r
  · left
    injection h with h1
    injection h1 with h2 h3
    exact h3.symm

theorem pExpOpt_cases (cs rest : List Char) (h : pExpOpt cs = some rest) :
    rest = cs ∨ SufNC cs rest := by
  cases cs with
  | nil =>
    left
    simp only [pExpOpt] at h
    injection h with h1
    exact h1.symm
  | cons c cs' =>
    simp only [pExpOpt] at h
    by_cases he : c = 'e' ∨ c = 'E'
    · rw [if_pos he] at h
      have hc : c ≠ ',' := by
        rcases he with rfl | rfl <;> decide
      cases cs' with
      | nil =>
        dsimp only at h
        split at h
        · cases h
        · injection h with h1
          right
          exact h1 ▸ sufNC_of_drop c Char.isDigit isDigit_ne_comma hc []
      | cons s r2 =>
        dsimp only at h
        by_cases hs : s = '+' ∨ s = '-'
        · rw [if_pos hs] at h
          split at h
          · cases h
          · injection h with h1
            have hsc : s ≠ ',' := by
              rcases hs with rfl | rfl <;> decide
            right
            exact h1 ▸ sufNC_cons c
              (sufNC_of_drop s Char.isDigit isDigit_ne_comma hsc r2)
        · rw [if_neg hs] at h
          split at h
          · cases h
          · injection h with h1
            right
            exact h1 ▸ sufNC_of_drop c Char.isDigit isDigit_ne_comma hc (s :: r2)
    · rw [if_neg he] at h
      left
      injection h with h1
      exact h1.symm

theorem pNumBody_sufNC (cs1 : List Char) (v : JVal) (rest : List Char)
    (h : pNumBody cs1 = some (v, rest)) : SufNC cs1 rest := by
  unfold pNumBody at h
  cases hni : pNumInt cs1 with
  | none => rw [hni] at h; cases h
  | some p1 =>
    obtain ⟨ds, cs2⟩ := p1
    rw [hni] at h
    dsimp only at h
    cases hfr : pFracOpt cs2 with
    | none => rw [hfr] at h; cases h
    | some p2 =>
      obtain ⟨fs, cs3⟩ := p2
      rw [hfr] at h
      dsimp only at h
      cases hex : pExpOpt cs3 with
      | none => rw [hex] at h; cases h
      | some cs4 =>
        rw [hex] at h
        dsimp only at h
        injection h with h1
        injection h1 with h2 h3
        have s12 : SufNC cs1 cs2 := pNumInt_sufNC cs1 ds cs2 hni
        have s13 : SufNC cs1 cs3 := by
          rcases pFracOpt_cases cs2 fs cs3 hfr with he | hs
          · exact he ▸ s12
          · exact sufNC_trans s12 hs
        have s14 : SufNC cs1 cs4 := by
          rcases pExpOpt_cases cs3 cs4 hex with he | hs
          · exact he ▸ s13
          · exact sufNC_trans s13 hs
        exact h3 ▸ s14

theorem pNumber_sufNC (cs : List Char) (v : JVal) (rest : List Char)
    (h : pNumber cs = some (v, rest)) : SufNC cs rest := by
  cases cs with
  | nil => exact pNumBody_sufNC [] v rest h
  | cons c cs' =>
    by_cases hm : c = '-'
    · subst hm
      exact sufNC_cons '-' (pNumBody_sufNC cs' v rest h)
    · have he : pNumber (c :: cs') = pNumBody (c :: cs') := by
        unfold pNumber
        split
        · rename_i r heq
          injection heq with hA hB
          exact absurd hA hm
        · rfl
      rw [he] at h
      exact pNumBody_sufNC _ v rest h

theorem stripLit_eq : ∀ (ps cs rest : List Char),
    stripLit ps cs = some rest → cs = ps ++ rest := by
  intro ps
  induction ps with
  | nil =>
    intro cs rest h
    injection h with h1
  | cons p ps' ih =>
    intro cs rest h
    cases cs with
    | nil => cases h
    | cons c cs' =>
      simp only [stripLit] at h
      split at h
      · rename_i hcp
        rw [hcp, List.cons_append]
        exact congrArg (List.cons p) (ih cs' rest h)
      · cases h

theorem pMembers_nil (fuel : Nat) : pMembers fuel [] = none := by
  cases fuel <;> simp [pMembers]

theorem pVME_sufNC : ∀ fuel : Nat,
    (∀ cs v rest, pValue fuel cs = some (v, rest) → SufNC cs rest) ∧
    (∀ cs kvs rest, pMembers fuel cs = some (kvs, rest) → SufNC cs rest) ∧
    (∀ cs vs rest, pElements fuel cs = some (vs, rest) → SufNC cs rest) := by
  intro fuel
  induction fuel with
  | zero =>
    refine ⟨?_, ?_, ?_⟩
    · intro cs v rest h; simp [pValue] at h
    · intro cs kvs rest h; simp [pMembers] at h
    · intro cs vs rest h; simp [pElements] at h
  | succ fuel ih =>
    obtain ⟨ihV, ihM, ihE⟩ := ih
    refine ⟨?_, ?_, ?_⟩
    · intro cs v rest h
      cases cs with
      | nil => simp [pValue] at h
      | cons c cs' =>
        simp only [pValue] at h
        by_cases hq : c = '"'
        · rw [if_pos hq] at h
          rw [Option.map_eq_some'] at h
          obtain ⟨⟨s', r'⟩, hp, heq⟩ := h
          injection heq with hA hB
          exact hB ▸ sufNC_cons c (pStringRest_sufNC fuel cs' s' r' hp)
        · rw [if_neg hq] at h
          by_cases hob : c = '{'
          · rw [if_pos hob] at h
            split at h
            · rename_i r heq
              injection h with h1
              injection h1 with h2 h3
              refine sufNC_cons c ?_
              refine reaches_sufNC (reaches_skip cs') ?_
              rw [heq, ← h3]
              exact sufNC_head r (by decide)
            · rw [Option.map_eq_some'] at h
              obtain ⟨⟨kvs', r'⟩, hp, heq⟩ := h
              injection heq with hA hB
              exact hB ▸ sufNC_cons c
                (reaches_sufNC (reaches_skip cs') (ihM _ kvs' r' hp))
          · rw [if_neg hob] at h
            by_cases har : c = '['
            · rw [if_pos har] at h
              split at h
              · rename_i r heq
                injection h with h1
                injection h1 with h2 h3
                refine sufNC_cons c ?_
                refine reaches_sufNC (reaches_skip cs') ?_
                rw [heq, ← h3]
                exact sufNC_head r (by decide)
              · rw [Option.map_eq_some'] at h
                obtain ⟨⟨vs', r'⟩, hp, heq⟩ := h
                injection heq with hA hB
                exact hB ▸ sufNC_cons c
                  (reaches_sufNC (reaches_skip cs') (ihE _ vs' r' hp))
            · rw [if_neg har] at h
              by_cases ht : c = 't'
              · rw [if_pos ht] at h
                rw [Option.map_eq_some'] at h
                obtain ⟨r', hp, heq⟩ := h
                injection heq with hA hB
                have := stripLit_eq _ _ _ hp
                subst ht
                refine hB ▸ ⟨['t', 'r', 'u'], 'e', by decide, ?_⟩
                rw [this]
                rfl
              · rw [if_neg ht] at h
                by_cases hf : c = 'f'
                · rw [if_pos hf] at h
                  rw [Option.map_eq_some'] at h
                  obtain ⟨r', hp, heq⟩ := h
                  injection heq with hA hB
                  have := stripLit_eq _ _ _ hp
                  subst hf
                  refine hB ▸ ⟨['f', 'a', 'l', 's'], 'e', by decide, ?_⟩
                  rw [this]
                  rfl
                · rw [if_neg hf] at h
                  by_cases hn : c = 'n'
                  · rw [if_pos hn] at h
                    rw [Option.map_eq_some'] at h
                    obtain ⟨r', hp, heq⟩ := h
                    injection heq with hA hB
                    have := stripLit_eq _ _ _ hp
                    subst hn
                    refine hB ▸ ⟨['n', 'u', 'l'], 'l', by decide, ?_⟩
                    rw [this]
                    rfl
                  · rw [if_neg hn] at h
                    by_cases hnum : c = '-' ∨ c.isDigit
                    · rw [if_pos hnum] at h
                      exact pNumber_sufNC _ v rest h
                    · rw [if_neg hnum] at h
                      cases h
    · intro cs kvs rest h
      cases cs with
      | nil => simp [pMembers] at h
      | cons c cs' =>
        simp only [pMembers] at h
        by_cases hq : c = '"'
        · rw [if_pos hq] at h
          cases hpS : pStringRest fuel cs' with
          | none => rw [hpS] at h; cases h
          | some pk =>
            obtain ⟨k, r1⟩ := pk
            rw [hpS] at h
            dsimp only at h
            have hs1 : SufNC cs' r1 := pStringRest_sufNC fuel cs' k r1 hpS
            have hr1 : Reaches (c :: cs') r1 :=
              reaches_trans (reaches_cons c cs') (sufNC_reaches hs1)
            cases hsk1 : skipJsonWs r1 with
            | nil => rw [hsk1] at h; cases h
            | cons c2 r2 =>
              rw [hsk1] at h
              dsimp only at h
              by_cases hc2 : c2 = ':'
              · rw [if_pos hc2] at h
                have hr2 : Reaches r1 r2 := by
                  refine reaches_trans (reaches_skip r1) ?_
                  rw [hsk1]
                  exact reaches_cons c2 r2
                cases hpV : pValue fuel (skipJsonWs r2) with
                | none => rw [hpV] at h; cases h
                | some pv =>
                  obtain ⟨v, r3⟩ := pv
                  rw [hpV] at h
                  dsimp only at h
                  have hs3 : SufNC (skipJsonWs r2) r3 := ihV _ v r3 hpV
                  have hr3 : Reaches r2 r3 :=
                    reaches_trans (reaches_skip r2) (sufNC_reaches hs3)
                  cases hsk3 : skipJsonWs r3 with
                  | nil => rw [hsk3] at h; cases h
                  | cons c3 r4 =>
                    rw [hsk3] at h
                    dsimp only at h
                    by_cases hc3 : c3 = ','
                    · rw [if_pos hc3] at h
                      rw [Option.map_eq_some'] at h
                      obtain ⟨⟨kvs', rest'⟩, hpM, heqM⟩ := h
                      injection heqM with hA hB
                      have hr4 : Reaches r3 r4 := by
                        refine reaches_trans (reaches_skip r3) ?_
                        rw [hsk3]
                        exact reaches_cons c3 r4
                      exact hB ▸ reaches_sufNC
                        (reaches_trans hr1 (reaches_trans hr2 (reaches_trans hr3
                          (reaches_trans hr4 (reaches_skip r4)))))
                        (ihM _ kvs' rest' hpM)
                    · rw [if_neg hc3] at h
                      by_cases hc3b : c3 = '}'
                      · rw [if_pos hc3b] at h
                        injection h with h1
                        injection h1 with h2 h3
                        have hsF : SufNC r3 r4 := by
                          refine reaches_sufNC (reaches_skip r3) ?_
                          rw [hsk3]
                          exact sufNC_head r4 (by subst hc3b; decide)
                        exact h3 ▸ reaches_sufNC
                          (reaches_trans hr1 (reaches_trans hr2 hr3)) hsF
                      · rw [if_neg hc3b] at h
                        cases h
              · rw [if_neg hc2] at h
                cases h
        · rw [if_neg hq] at h
          cases h
    · intro cs vs rest h
      simp only [pElements] at h
      cases hpV : pValue fuel cs with
      | none => rw [hpV] at h; cases h
      | some pv =>
        obtain ⟨v, r1⟩ := pv
        rw [hpV] at h
        dsimp only at h
        have hs1 : SufNC cs r1 := ihV cs v r1 hpV
        cases hsk : skipJsonWs r1 with
        | nil => rw [hsk] at h; cases h
        | cons c2 r2 =>
          rw [hsk] at h
          dsimp only at h
          by_cases hc2 : c2 = ','
          · rw [if_pos hc2] at h
            rw [Option.map_eq_some'] at h
            obtain ⟨⟨vs', rest'⟩, hpE, heqE⟩ := h
            injection heqE with hA hB
            have hr2 : Reaches r1 r2 := by
              refine reaches_trans (reaches_skip r1) ?_
              rw [hsk]
              exact reaches_cons c2 r2
            exact hB ▸ reaches_sufNC
              (reaches_trans (sufNC_reaches hs1)
                (reaches_trans hr2 (reaches_skip r2)))
              (ihE _ vs' rest' hpE)
          · rw [if_neg hc2] at h
            by_cases hc2b : c2 = ']'
            · rw [if_pos hc2b] at h
              injection h with h1
              injection h1 with h2 h3
              have hsF : SufNC r1 r2 := by
                refine reaches_sufNC (reaches_skip r1) ?_
                rw [hsk]
                exact sufNC_head r2 (by subst hc2b; decide)
              exact h3 ▸ sufNC_trans hs1 hsF
            · rw [if_neg hc2b] at h
              cases h

theorem pValue_head (fuel : Nat) (cs : List Char) (v : JVal) (rest : List Char)
    (h : pValue fuel cs = some (v, rest)) : ∃ c cs', cs = c :: cs' ∧ c ≠ ',' := by
  cases fuel with
  | zero => simp [pValue] at h
  | succ fuel =>
    cases cs with
    | nil => simp [pValue] at h
    | cons c cs' =>
      refine ⟨c, cs', rfl, ?_⟩
      intro hc
      subst hc
      simp [pValue] at h

/-- Soundness facts of a successful `JSON.parse`: the text is nonempty
and neither starts nor ends with a comma (modulo nothing — the
whitespace wrapper itself contains no commas). -/
theorem jsonParseL_sound (cs : List Char) (v : JVal) (h : jsonParseL cs = some v) :
    cs ≠ [] ∧ cs.head? ≠ some ',' ∧ cs.getLast? ≠ some ',' := by
  unfold jsonParseL at h
  cases hp : pValue (cs.length + 1) (skipJsonWs cs) with
  | none => rw [hp] at h; cases h
  | some pv =>
    obtain ⟨v', rest⟩ := pv
    rw [hp] at h
    dsimp only at h
    split at h
    · rename_i hrest
      obtain ⟨c0, cs0, hsk_eq, hc0⟩ := pValue_head _ _ _ _ hp
      obtain ⟨l, cc, hcc, hsuf⟩ := (pVME_sufNC (cs.length + 1)).1 _ v' rest hp
      have hsplit : cs = cs.takeWhile isJsonWs ++ skipJsonWs cs :=
        (List.takeWhile_append_dropWhile _ _).symm
      refine ⟨?_, ?_, ?_⟩
      · intro hnil
        subst hnil
        simp [skipJsonWs] at hsk_eq
      · intro hhead
        cases htw : cs.takeWhile isJsonWs with
        | nil =>
          have he : skipJsonWs cs = cs := by
            conv_rhs => rw [hsplit]
            rw [htw, List.nil_append]
          rw [he] at hsk_eq
          rw [hsk_eq] at hhead
          simp at hhead
          exact hc0 hhead
        | cons w ws =>
          have hw : isJsonWs w = true :=
            List.mem_takeWhile_imp (by rw [htw]; exact List.mem_cons_self w ws)
          have hh : cs.head? = some w := by
            conv_lhs => rw [hsplit, htw]
            rfl
          rw [hh] at hhead
          injection hhead with hw2
          rw [hw2] at hw
          exact absurd hw (by decide)
      · intro hlast
        cases hr : rest with
        | nil =>
          have hl : cs.getLast? = some cc := by
            conv_lhs => rw [hsplit, hsuf, hr]
            rw [show cs.takeWhile isJsonWs ++ (l ++ cc :: []) =
              (cs.takeWhile isJsonWs ++ l) ++ [cc] from by simp]
            rw [List.getLast?_append_of_ne_nil _ (by simp)]
            rfl
          rw [hl] at hlast
          injection hlast with he
          exact hcc he
        | cons r0 rs =>
          have hallws : ∀ x ∈ rest, isJsonWs x = true :=
            List.dropWhile_eq_nil_iff.mp hrest
          have hlne : rest ≠ [] := by rw [hr]; simp
          have hl : cs.getLast? = rest.getLast? := by
            conv_lhs => rw [hsplit, hsuf]
            rw [show cs.takeWhile isJsonWs ++ (l ++ cc :: rest) =
              (cs.takeWhile isJsonWs ++ l ++ [cc]) ++ rest from by simp]
            exact List.getLast?_append_of_ne_nil _ hlne
          rw [hl] at hlast
          obtain ⟨hex, hge⟩ :=
            List.mem_getLast?_eq_getLast (Option.mem_def.mpr hlast)
          have hmem : ',' ∈ rest := hge ▸ List.getLast_mem hex
          exact absurd (hallws ',' hmem) (by decide)
    · cases h

theorem strategy3_isSome (cs : List Char)
    (hnl : ∀ c ∈ cs, isLineTerm c = false)
    (hcomma : ',' ∈ cs)
    (hhead : cs.head? ≠ some ',')
    (hlast : cs.getLast? ≠ some ',') :
    (strategy3 cs).isSome := by
  obtain ⟨a, r, hsp⟩ := splitAtComma_isSome cs hcomma
  obtain ⟨heq, hna⟩ := splitAtComma_eq cs a r hsp
  unfold strategy3
  rw [hsp]
  dsimp only
  have ha : ¬ a.isEmpty = true := by
    intro hae
    have ha0 : a = [] := by simpa using hae
    subst ha0
    rw [heq] at hhead
    exact hhead rfl
  rw [if_neg ha]
  have hrne : r ≠ [] := by
    intro hre
    subst hre
    rw [heq] at hlast
    refine hlast ?_
    rw [List.getLast?_append_of_ne_nil _ (by simp)]
    rfl
  have hrnl : ∀ c ∈ r, isLineTerm c = false := fun c hcm =>
    hnl c (by rw [heq]; exact List.mem_append.mpr (Or.inr (List.mem_cons_of_mem ',' hcm)))
  obtain ⟨g, hg⟩ := Option.isSome_iff_exists.mp (matchTail_isSome r hrne hrnl)
  rw [hg]
  rfl

/-- Claim C5 (amended): a single-line well-formed JSON payload
containing a comma is resolved by one of the comma-splitting strategies
1-3 — the structured/JSON strategy is never consulted — so the result
is cut out of the raw JSON text at comma boundaries rather than taken
from the JSON field values.  (The unamended aside that the name always
begins with JSON punctuation fails when the labeled strategy 2 fires
inside a string value.) -/
theorem claim_c5_amended (s : String)
    (hnl : ∀ c ∈ s.data, isLineTerm c = false)
    (hjson : (jsonParseL s.data).isSome)
    (hcomma : ',' ∈ s.data) :
    ∃ r : List Char × List Char,
      (strategy1 s.data = some r ∨ strategy2 s.data = some r ∨
        strategy3 s.data = some r) ∧
      parseQRContent s = { name := ⟨r.1⟩, country := ⟨r.2⟩ } := by
  obtain ⟨v, hv⟩ := Option.isSome_iff_exists.mp hjson
  obtain ⟨hne, hhead, hlast⟩ := jsonParseL_sound s.data v hv
  cases h1 : strategy1 s.data with
  | some r =>
    refine ⟨r, Or.inl rfl, ?_⟩
    unfold parseQRContent parseCore
    rw [h1]
  | none =>
    cases h2 : strategy2 s.data with
    | some r =>
      refine ⟨r, Or.inr (Or.inl rfl), ?_⟩
      unfold parseQRContent parseCore
      rw [h1, h2]
    | none =>
      obtain ⟨r, h3⟩ := Option.isSome_iff_exists.mp
        (strategy3_isSome s.data hnl hcomma hhead hlast)
      refine ⟨r, Or.inr (Or.inr h3), ?_⟩
      unfold parseQRContent parseCore
      rw [h1, h2, h3]

theorem claim_c5_amended_witness :
    ∃ r : List Char × List Char,
      (strategy1 "\x7b\"name\":\"A\",\"country\":\"B\"\x7d".data = some r ∨
        strategy2 "\x7b\"name\":\"A\",\"country\":\"B\"\x7d".data = some r ∨
        strategy3 "\x7b\"name\":\"A\",\"country\":\"B\"\x7d".data = some r) ∧
      parseQRContent "\x7b\"name\":\"A\",\"country\":\"B\"\x7d" =
        { name := ⟨r.1⟩, country := ⟨r.2⟩ } :=
  claim_c5_amended "\x7b\"name\":\"A\",\"country\":\"B\"\x7d"
    (by decide) (by decide) (by decide)

/-- The structural characters of JSON syntax. -/
def isJsonPunct (c : Char) : Bool :=
  decide (c = '\x7b' ∨ c = '\x7d' ∨ c = '[' ∨ c = ']' ∨ c = ':' ∨ c = ',' ∨ c = '"')

/-- Claim C5 counterexample: a single-line well-formed JSON payload
with a comma whose string value embeds the labeled `Name:/Country:`
form is resolved by strategy 2, and the returned name `a` does not
begin with JSON punctuation, refuting the claim's parenthetical. -/
theorem claim_c5_counterexample :
    (∀ c ∈ "\x7b\"name\":\"Name: a, Country: b\"\x7d".data, isLineTerm c = false) ∧
    (jsonParseL "\x7b\"name\":\"Name: a, Country: b\"\x7d".data).isSome ∧
    ',' ∈ "\x7b\"name\":\"Name: a, Country: b\"\x7d".data ∧
    (parseQRContent "\x7b\"name\":\"Name: a, Country: b\"\x7d").name = "a" ∧
    "a".data.head? = some 'a' ∧ isJsonPunct 'a' = false := by decide
